import Mathlib

/-!
Verification of the task execution engine of the ECHOMEN repository.

The definitions below are a shallow embedding of the `AgentExecutor` class
(src/unnamed/part_000) together with the task data model (src/types.ts).
TypeScript `undefined` for the optional `subSteps` array is modelled as the
empty list (the engine only ever reads it through patterns that treat
`undefined` and `[]` identically: `subSteps || []`, and
`subSteps ? subSteps[subSteps.length - 1] : undefined` where indexing an
empty array also yields `undefined`).  Machine integers do not occur: the
counters are small non-negative JavaScript numbers, modelled as `Nat`.
-/

namespace Echomen

/-- The `TaskStatus` union type of src/types.ts (line 21).  The constructor
`PendingReview` stands for the string literal `'Pending Review'`. -/
inductive TaskStatus where
  | Done
  | Executing
  | Queued
  | Error
  | PendingReview
  | Revising
  | Delegating
  | Cancelled
deriving DecidableEq

/-- The `ToolCall` interface of src/types.ts.  The untyped `args` record is
modelled as an association list of string keys and string values. -/
structure ToolCall where
  name : String
  args : List (String × String)
deriving DecidableEq

/-- The `SubStep` interface of src/types.ts. -/
structure SubStep where
  thought : String
  toolCall : ToolCall
  observation : String
deriving DecidableEq

/-- The `Task` interface of src/types.ts, restricted to the fields the
execution engine reads or writes (`logs` and `reviewHistory` are never
touched by the code of `AgentExecutor` and are omitted; the
`agent` record is flattened into `agentRole` and `agentName`). -/
structure Task where
  id : String
  title : String
  status : TaskStatus
  agentRole : String
  agentName : String
  estimatedTime : String
  details : String
  dependencies : List String
  retryCount : Nat
  maxRetries : Nat
  subSteps : List SubStep
  delegatorTaskId : Option String
deriving DecidableEq

/-- A partial update object, as passed to `AgentExecutor.updateTask`.  Only
the fields that the engine ever updates are present; an absent field
(`none`) leaves the task's field unchanged, exactly like the object spread
`{ ...t, ...updates }` in the source. -/
structure TaskUpdates where
  status : Option TaskStatus := none
  retryCount : Option Nat := none
  subSteps : Option (List SubStep) := none

/-- Applying a partial update: `{ ...t, ...updates }`. -/
def applyUpdates (t : Task) (u : TaskUpdates) : Task :=
  { t with
    status := u.status.getD t.status
    retryCount := u.retryCount.getD t.retryCount
    subSteps := u.subSteps.getD t.subSteps }

/-- Predicate used throughout the source for locating a task:
`t => t.id === someId`. -/
def byId (i : String) : Task → Bool := fun t => t.id == i

/-- The result of `AgentExecutor.updateTask` (part_000 lines 143-162):
the new task list, the returned task, and the snapshot passed to the
`onTaskUpdate` observer callback (if any notification happened). -/
structure UpdateResult where
  tasks : List Task
  returned : Task
  notified : Option Task
deriving DecidableEq

/-- `AgentExecutor.updateTask` (part_000 lines 143-162): map over the list
replacing every task whose id matches, remember whether anything matched,
reassign the list only in that case, notify the observer with the freshly
looked-up snapshot, and return it; with no match the list is left alone and
`{ ...task, ...updates }` is returned without notification. -/
def updateTask (tasks : List Task) (task : Task) (u : TaskUpdates) : UpdateResult :=
  let wasUpdated := tasks.any (byId task.id)
  let updatedTasks := tasks.map fun t => if t.id = task.id then applyUpdates t u else t
  if wasUpdated then
    match updatedTasks.find? (byId task.id) with
    | some ut => ⟨updatedTasks, ut, some ut⟩
    | none => ⟨updatedTasks, applyUpdates task u, none⟩
  else
    ⟨tasks, applyUpdates task u, none⟩

/-- The pure list effect of `updateTask`, used as the canonical form in the
lemmas below. -/
def updateList (tasks : List Task) (i : String) (u : TaskUpdates) : List Task :=
  tasks.map fun t => if t.id = i then applyUpdates t u else t

/-- `AgentExecutor.findReadyTasks` (part_000 lines 133-141): the readiness
test for a single task. -/
def isReady (tasks : List Task) (task : Task) : Bool :=
  decide (task.status = TaskStatus.Queued) &&
  task.dependencies.all fun depId =>
    match tasks.find? (byId depId) with
    | some dep => decide (dep.status = TaskStatus.Done)
    | none => false

/-- `AgentExecutor.findReadyTasks` (part_000 lines 133-141): tasks that are
`Queued` and whose every dependency id resolves to a `Done` task. -/
def findReadyTasks (tasks : List Task) : List Task :=
  tasks.filter (isReady tasks)

/- ### Basic lemmas about `updateTask` and `updateList` -/

theorem applyUpdates_id (t : Task) (u : TaskUpdates) : (applyUpdates t u).id = t.id := rfl

theorem applyUpdates_dependencies (t : Task) (u : TaskUpdates) :
    (applyUpdates t u).dependencies = t.dependencies := rfl

theorem applyUpdates_delegator (t : Task) (u : TaskUpdates) :
    (applyUpdates t u).delegatorTaskId = t.delegatorTaskId := rfl

theorem updateList_nil (i : String) (u : TaskUpdates) : updateList [] i u = [] := rfl

theorem updateList_eq_self (tasks : List Task) (i : String) (u : TaskUpdates)
    (h : ∀ t ∈ tasks, t.id ≠ i) : updateList tasks i u = tasks := by
  induction tasks with
  | nil => rfl
  | cons hd tl ih =>
    simp only [updateList, List.map_cons]
    rw [if_neg (h hd (List.mem_cons_self hd tl))]
    have := ih fun t ht => h t (List.mem_cons_of_mem hd ht)
    simp only [updateList] at this
    rw [this]

/-- The list component of `updateTask` is always `updateList`. -/
theorem updateTask_tasks (tasks : List Task) (task : Task) (u : TaskUpdates) :
    (updateTask tasks task u).tasks = updateList tasks task.id u := by
  unfold updateTask
  by_cases h : tasks.any (byId task.id)
  · simp only [h, if_true]
    cases hf : (tasks.map fun t => if t.id = task.id then applyUpdates t u else t).find? (byId task.id) <;>
      simp [updateList]
  · simp only [h]
    rw [if_neg (by simp [h])]
    refine (updateList_eq_self tasks task.id u ?_).symm
    intro t ht hid
    exact h (List.any_eq_true.mpr ⟨t, ht, by simp [byId, hid]⟩)

theorem updateList_map_id (tasks : List Task) (i : String) (u : TaskUpdates) :
    (updateList tasks i u).map Task.id = tasks.map Task.id := by
  induction tasks with
  | nil => rfl
  | cons hd tl ih =>
    simp only [updateList, List.map_cons] at *
    by_cases h : hd.id = i
    · rw [if_pos h]; simp [applyUpdates_id, ih]
    · rw [if_neg h]; simp [ih]

theorem find?_updateList (tasks : List Task) (i : String) (u : TaskUpdates) (j : String) :
    (updateList tasks i u).find? (byId j) =
      (tasks.find? (byId j)).map fun t => if t.id = i then applyUpdates t u else t := by
  induction tasks with
  | nil => rfl
  | cons hd tl ih =>
    simp only [updateList, List.map_cons, List.find?_cons] at *
    by_cases hj : byId j hd = true
    · have hid : (if hd.id = i then applyUpdates hd u else hd).id = hd.id := by
        by_cases h : hd.id = i <;> simp [h, applyUpdates_id]
      have : byId j (if hd.id = i then applyUpdates hd u else hd) = true := by
        simp only [byId] at hj ⊢; rw [hid]; exact hj
      rw [this, hj]
      simp
    · have hid : (if hd.id = i then applyUpdates hd u else hd).id = hd.id := by
        by_cases h : hd.id = i <;> simp [h, applyUpdates_id]
      have : byId j (if hd.id = i then applyUpdates hd u else hd) = false := by
        simp only [byId] at hj ⊢
        rw [hid]
        simpa using hj
      rw [this]
      simp only [Bool.not_eq_true] at hj
      rw [hj]
      exact ih

theorem find?_byId_eq_some {tasks : List Task} {i : String} {t : Task}
    (h : tasks.find? (byId i) = some t) : t.id = i ∧ t ∈ tasks := by
  have h1 := List.find?_some h
  have h2 := List.mem_of_find?_eq_some h
  simp only [byId, beq_iff_eq] at h1
  exact ⟨h1, h2⟩

/-- With pairwise distinct ids, `find?` locates exactly the member task. -/
theorem find?_byId_of_nodup {tasks : List Task} {t : Task}
    (hnd : (tasks.map Task.id).Nodup) (ht : t ∈ tasks) :
    tasks.find? (byId t.id) = some t := by
  induction tasks with
  | nil => cases ht
  | cons hd tl ih =>
    simp only [List.map_cons, List.nodup_cons] at hnd
    rcases List.mem_cons.mp ht with rfl | htl
    · simp [List.find?_cons, byId]
    · have hne : ¬ hd.id = t.id := by
        intro he
        exact hnd.1 (he ▸ List.mem_map.mpr ⟨t, htl, rfl⟩)
      simp only [List.find?_cons]
      have : byId t.id hd = false := by simpa [byId] using hne
      rw [this]
      exact ih hnd.2 htl

/- ### Final outcome classification (part_000 lines 82-97) -/

/-- Events emitted to the caller after the scheduler loop ends: the
`onFinish` callback, the `onFail(message)` callback, the playbook success
log that replaces `onFinish` for playbook runs, or no event at all. -/
inductive FinalEvent where
  | finish
  | fail (msg : String)
  | playbookLog
  | silent
deriving DecidableEq

def FinalEvent.isFail : FinalEvent → Bool
  | .fail _ => true
  | _ => false

def FinalEvent.isFinish : FinalEvent → Bool
  | .finish => true
  | _ => false

/-- The `onFail` message built at part_000 line 93. -/
def unresolvedMessage (n : Nat) : String :=
  "Could not complete all tasks. " ++ toString n ++ " tasks remain unresolved."

/-- The `onFail` message of the deadlock branch, part_000 line 65. -/
def stallMessage : String :=
  "Execution stalled due to a dependency issue or a cycle in the task graph."

/-- Part_000 line 83: `this.tasks.every(t => t.status === 'Done' || t.status === 'Cancelled')`. -/
def allDoneOrCancelled (tasks : List Task) : Bool :=
  tasks.all fun t => decide (t.status = TaskStatus.Done) || decide (t.status = TaskStatus.Cancelled)

/-- Part_000 line 84: `initialTasks[0]?.id.startsWith('playbook-')`. -/
def isFromPlaybook (initialTasks : List Task) : Bool :=
  match initialTasks.head? with
  | some t => "playbook-".isPrefixOf t.id
  | none => false

/-- Part_000 line 91: the number of tasks left in `Queued` or `Pending Review`. -/
def unresolvedCount (tasks : List Task) : Nat :=
  (tasks.filter fun t =>
    decide (t.status = TaskStatus.Queued) || decide (t.status = TaskStatus.PendingReview)).length

/-- The final status check of `AgentExecutor.run` (part_000 lines 82-97),
reached after the scheduler loop ends without `stop()` having been called:
if every task is `Done` or `Cancelled`, fire `onFinish` (or only log, for a
playbook-initiated run); otherwise fire `onFail` with the unresolved count
when it is positive, fire `onFinish` when no task is in `Error`, and
otherwise fire nothing. -/
def finalStatusCheck (initialTasks tasks : List Task) : FinalEvent :=
  if allDoneOrCancelled tasks then
    if isFromPlaybook initialTasks then FinalEvent.playbookLog else FinalEvent.finish
  else
    if 0 < unresolvedCount tasks then FinalEvent.fail (unresolvedMessage (unresolvedCount tasks))
    else if !(tasks.any fun t => decide (t.status = TaskStatus.Error)) then FinalEvent.finish
    else FinalEvent.silent

/-- A task record with engine-default bookkeeping fields, used for the
concrete scenarios below. -/
def mkTask (i : String) (st : TaskStatus) (deps : List String) : Task :=
  { id := i, title := i, status := st, agentRole := "Executor", agentName := "Agent",
    estimatedTime := "", details := "", dependencies := deps, retryCount := 0,
    maxRetries := 3, subSteps := [], delegatorTaskId := none }

/-- Claim C1, counterexample: a final task list holding one `Error` task and
no `Queued` or `Pending Review` task.  The claim states that exactly one of
`onFinish`/`onFail` fires and that it is `onFail`; the code fires neither
callback (the `else` chain at part_000 lines 90-97 has no branch for this
case), so the run ends silently. -/
theorem claim1_counterexample :
    (∃ t ∈ [mkTask "e" TaskStatus.Error []], t.status = TaskStatus.Error) ∧
    (∀ t ∈ [mkTask "e" TaskStatus.Error []],
      t.status ≠ TaskStatus.Queued ∧ t.status ≠ TaskStatus.PendingReview) ∧
    (finalStatusCheck [mkTask "e" TaskStatus.Error []] [mkTask "e" TaskStatus.Error []]).isFail
      = false ∧
    (finalStatusCheck [mkTask "e" TaskStatus.Error []] [mkTask "e" TaskStatus.Error []]).isFinish
      = false := by
  decide

/-- Claim C1, amended: after a normal loop end, `onFinish` fires iff either
every task is `Done`/`Cancelled` and the run is not playbook-initiated, or
not every task is `Done`/`Cancelled` but no task is `Queued`/`Pending
Review` and none is `Error`; `onFail` fires iff some task is left in
`Queued`/`Pending Review`, and it reports their count; when an `Error` task
remains with no `Queued`/`Pending Review` task, neither callback fires; for
a playbook-initiated run with every task `Done`/`Cancelled` a success log
replaces `onFinish`. -/
theorem claim1_amended (initialTasks tasks : List Task) :
    (finalStatusCheck initialTasks tasks = FinalEvent.finish ↔
      (allDoneOrCancelled tasks = true ∧ isFromPlaybook initialTasks = false) ∨
      (allDoneOrCancelled tasks = false ∧ unresolvedCount tasks = 0 ∧
        ∀ t ∈ tasks, t.status ≠ TaskStatus.Error)) ∧
    (∀ msg, finalStatusCheck initialTasks tasks = FinalEvent.fail msg ↔
      (allDoneOrCancelled tasks = false ∧ 0 < unresolvedCount tasks ∧
        msg = unresolvedMessage (unresolvedCount tasks))) ∧
    (finalStatusCheck initialTasks tasks = FinalEvent.silent ↔
      (allDoneOrCancelled tasks = false ∧ unresolvedCount tasks = 0 ∧
        ∃ t ∈ tasks, t.status = TaskStatus.Error)) ∧
    (finalStatusCheck initialTasks tasks = FinalEvent.playbookLog ↔
      (allDoneOrCancelled tasks = true ∧ isFromPlaybook initialTasks = true)) := by
  unfold finalStatusCheck
  cases h1 : allDoneOrCancelled tasks with
  | true =>
    cases h2 : isFromPlaybook initialTasks <;> simp [h1, h2]
  | false =>
    rcases Nat.eq_zero_or_pos (unresolvedCount tasks) with h3 | h3
    · rw [if_neg (Bool.false_ne_true), if_neg (by omega)]
      cases h4 : tasks.any fun t => decide (t.status = TaskStatus.Error) with
      | true =>
        have he : ∃ t ∈ tasks, t.status = TaskStatus.Error := by
          obtain ⟨t, ht, hd⟩ := List.any_eq_true.mp h4
          exact ⟨t, ht, of_decide_eq_true hd⟩
        rw [if_neg (by simp)]
        refine ⟨?_, fun msg => ?_, ?_, ?_⟩
        · refine iff_of_false (by simp) ?_
          rintro (⟨ha, -⟩ | ⟨-, -, hnone⟩)
          · exact absurd ha (by simp)
          · obtain ⟨t, ht, hterr⟩ := he
            exact hnone t ht hterr
        · refine iff_of_false (by simp) ?_
          rintro ⟨-, hlt, -⟩
          omega
        · exact iff_of_true rfl ⟨rfl, h3, he⟩
        · refine iff_of_false (by simp) ?_
          rintro ⟨ha, -⟩
          exact absurd ha (by simp)
      | false =>
        have hno : ∀ t ∈ tasks, t.status ≠ TaskStatus.Error := by
          intro t ht hterr
          have : tasks.any (fun t => decide (t.status = TaskStatus.Error)) = true :=
            List.any_eq_true.mpr ⟨t, ht, by simp [hterr]⟩
          rw [h4] at this
          exact absurd this (by simp)
        rw [if_pos (by simp)]
        refine ⟨?_, fun msg => ?_, ?_, ?_⟩
        · exact iff_of_true rfl (Or.inr ⟨rfl, h3, hno⟩)
        · refine iff_of_false (by simp) ?_
          rintro ⟨-, hlt, -⟩
          omega
        · refine iff_of_false (by simp) ?_
          rintro ⟨-, -, t, ht, hterr⟩
          exact hno t ht hterr
        · refine iff_of_false (by simp) ?_
          rintro ⟨ha, -⟩
          exact absurd ha (by simp)
    · rw [if_neg (Bool.false_ne_true), if_pos h3]
      refine ⟨?_, fun msg => ?_, ?_, ?_⟩
      · refine iff_of_false (by simp) ?_
        rintro (⟨ha, -⟩ | ⟨-, hz, -⟩)
        · exact absurd ha (by simp)
        · omega
      · constructor
        · intro h
          exact ⟨rfl, h3, ((FinalEvent.fail.injEq _ _).mp h).symm⟩
        · rintro ⟨-, -, rfl⟩
          rfl
      · refine iff_of_false (by simp) ?_
        rintro ⟨-, hz, -⟩
        omega
      · refine iff_of_false (by simp) ?_
        rintro ⟨ha, -⟩
        exact absurd ha (by simp)

/-- Claim C1, witness: the amended classification evaluated on the
counterexample run (one `Error` task): the silent case applies. -/
theorem claim1_witness :
    allDoneOrCancelled [mkTask "e" TaskStatus.Error []] = false ∧
    unresolvedCount [mkTask "e" TaskStatus.Error []] = 0 ∧
    ∃ t ∈ [mkTask "e" TaskStatus.Error []], t.status = TaskStatus.Error :=
  ((claim1_amended [mkTask "e" TaskStatus.Error []] [mkTask "e" TaskStatus.Error []]).2.2.1).mp
    (by decide)

/- ### Delegation reactivation (part_000 lines 165-192) -/

/-- The synthetic observation recorded on the parent task when a delegated
child completes (part_000 line 178). -/
def childDoneObservation (title : String) : String :=
  "Delegated task \x27" ++ title ++
    "\x27 has been completed by the child agent. Review its work (e.g., read created files) and decide the next action."

/-- `AgentExecutor.reactivateDelegatorIfAny` (part_000 lines 165-192): when
the completed task carries a `delegatorTaskId` whose task is currently
`Delegating`, overwrite the observation of the parent's last sub-step with
the synthetic text and set the parent's status straight back to
`Executing`; otherwise do nothing.  (The source mutates the last sub-step
object in place and then stores a copy of the array; the net effect on the
list is the one modelled here.) -/
def reactivateDelegatorIfAny (tasks : List Task) (completedTask : Task) : List Task :=
  match completedTask.delegatorTaskId with
  | none => tasks
  | some pid =>
    match tasks.find? (byId pid) with
    | none => tasks
    | some parentTask =>
      if parentTask.status = TaskStatus.Delegating then
        match parentTask.subSteps.getLast? with
        | some lastStep =>
          (updateTask tasks parentTask
            { status := some TaskStatus.Executing
              subSteps := some (parentTask.subSteps.dropLast ++
                [{ lastStep with observation := childDoneObservation completedTask.title }]) }).tasks
        | none =>
          (updateTask tasks parentTask { status := some TaskStatus.Executing }).tasks
      else tasks

/-- The parent task of the concrete delegation scenario: `Delegating`, with
one recorded sub-step. -/
def c2parent : Task :=
  { mkTask "p" TaskStatus.Delegating [] with
    agentName := "God Mode"
    subSteps := [⟨"t0", ⟨"toolX", []⟩, "Paused to delegate task."⟩] }

/-- The completed child task of the concrete delegation scenario. -/
def c2child : Task :=
  { mkTask "c" TaskStatus.Done [] with delegatorTaskId := some "p" }

/-- The task list after the child completes and the parent is reactivated. -/
def c2state : List Task := reactivateDelegatorIfAny [c2parent, c2child] c2child

/-- Claim C2: reactivating the parent of a completed child does set the
parent back to `Executing` and does record the synthetic observation on the
parent's last sub-step — but the resulting parent is NOT eligible for
re-admission: `findReadyTasks` (the admission path, part_000 lines 133-141)
selects only `Queued` tasks, so the ready set of the reactivated state is
empty and the parent is never handed to the Step Executor again, contrary
to the code's own log message that God Mode is resuming. -/
theorem claim2_reactivation_not_readmitted :
    (c2state.find? (byId "p")).map Task.status = some TaskStatus.Executing ∧
    (c2state.find? (byId "p")).map Task.subSteps =
      some [⟨"t0", ⟨"toolX", []⟩, childDoneObservation "c"⟩] ∧
    findReadyTasks c2state = [] := by
  decide

/- ### Admission loop of the scheduler (part_000 lines 36-49) -/

/-- The concurrency cap `MAX_PARALLEL_TASKS` (part_000 line 33). -/
def MAX_PARALLEL_TASKS : Nat := 4

/-- JavaScript `Map.set` on the in-flight registry keyed by task id: an
existing key is overwritten, so the key list is unchanged; a new key is
appended. -/
def mapSet (active : List String) (i : String) : List String :=
  if active.contains i then active else active ++ [i]

/-- The inner admission loop of `AgentExecutor.run` (part_000 lines 41-49):
while the in-flight registry is below the cap and ready tasks remain, shift
the next ready task, start `executeTask` for it (recorded here in
`started`), and register its id in the in-flight map.  The loop never
checks whether the shifted task's id is already registered. -/
def admitLoop (active : List String) (ready : List Task) (started : List String) :
    List String × List String :=
  match ready with
  | [] => (active, started)
  | t :: rest =>
    if active.length < MAX_PARALLEL_TASKS then
      admitLoop (mapSet active t.id) rest (started ++ [t.id])
    else (active, started)

/-- One admission pass: in-flight registry and ready list in, final
registry and list of started `executeTask` invocations out. -/
def admitStep (active : List String) (ready : List Task) : List String × List String :=
  admitLoop active ready []

/-- Claim C3: a task sitting in `Queued` during its retry backoff, while
its original `executeTask` invocation is still registered in-flight, IS
returned by the dependency resolver (which filters on status only and
never consults the in-flight registry, part_000 lines 133-141) and IS
admitted a second time by the admission loop (which checks only the
registry size, part_000 lines 41-49): a second `executeTask` invocation is
started for the in-flight id. -/
theorem claim3_double_admission :
    findReadyTasks [mkTask "t1" TaskStatus.Queued []] = [mkTask "t1" TaskStatus.Queued []] ∧
    ["t1"].contains "t1" = true ∧
    (admitStep ["t1"] [mkTask "t1" TaskStatus.Queued []]).2 = ["t1"] := by
  decide

/- ### One iteration of the ReAct loop (part_000 lines 240-369) -/

/-- The payload of `onArtifactCreated` (an `Artifact` before id/timestamp
assignment).  The source field `type` is named `type` here as well. -/
structure ArtifactData where
  taskId : String
  title : String
  type : String
  content : String
deriving DecidableEq

/-- The outcome of `determineNextStep` (the external reasoning oracle):
either a termination signal or a thought/tool-call pair. -/
inductive OracleResult where
  | finished (finalThought : String)
  | step (thought : String) (toolCall : ToolCall)

/-- Reading a key out of a tool call's `args` record.  A missing key is
JavaScript `undefined`; it is modelled as the empty string (no claim
depends on a missing argument). -/
def getArg (args : List (String × String)) (key : String) : String :=
  match args.find? (fun p => p.1 == key) with
  | some p => p.2
  | none => ""

/-- The child task synthesized by the delegation branch (part_000 lines
277-290); `now` stands for `Date.now()`. -/
def delegatedChild (now : Nat) (parent : Task) (args : List (String × String)) : Task :=
  { id := "task-sub-" ++ toString now
    title := "Delegated: " ++ getArg args "agent_name"
    status := TaskStatus.Queued
    agentRole := "Executor"
    agentName := getArg args "agent_name"
    estimatedTime := "~5m"
    details := getArg args "task_description"
    dependencies := []
    retryCount := 0
    maxRetries := 3
    subSteps := []
    delegatorTaskId := some parent.id }

/-- The observable outcome of one iteration of the ReAct loop: the task
list after the iteration, the local `subSteps` accumulator, the thrown
error's message (if the iteration threw), the artifacts emitted via
`onArtifactCreated`, the spawned child task (for the delegation branch),
and whether the oracle signalled termination. -/
structure IterResult where
  tasks : List Task
  subSteps : List SubStep
  thrown : Option String
  artifactsCreated : List ArtifactData
  spawned : Option Task
  concluded : Bool
deriving DecidableEq

/-- One iteration of `AgentExecutor.runReActLoop` (part_000 lines 249-365)
after the oracle call, given the oracle's result, the external tool surface
`tools` (the `availableTools` lookup: `none` models a missing
implementation) and `execCode` (the `availableTools.executeCode` call).
The dispatch order, the early return of the delegation branch, and — for
the two throwing branches — the fact that the error is thrown BEFORE the
sub-step push at lines 362-365, are taken verbatim from the source.  The
stop/status guard at the top of the loop body and JSON serialization of
tool results are loop-level and collaborator concerns and are not part of
this per-iteration model. -/
def reactIteration (tools : String → Option (List (String × String) → Except String String))
    (execCode : String → String → Except String String) (now : Nat)
    (tasks : List Task) (task : Task) (subSteps : List SubStep)
    (oracle : OracleResult) : IterResult :=
  match oracle with
  | OracleResult.finished _ => ⟨tasks, subSteps, none, [], none, true⟩
  | OracleResult.step thought tc =>
    if tc.name = "create_and_delegate_task_to_new_agent" then
      let child := delegatedChild now task tc.args
      let subSteps1 := subSteps ++ [⟨thought, tc, "Paused to delegate task."⟩]
      let tasks1 := (updateTask tasks task
        { status := some TaskStatus.Delegating, subSteps := some subSteps1 }).tasks
      ⟨tasks1 ++ [child], subSteps1, none, [], some child, false⟩
    else if tc.name = "createArtifact" then
      let art : ArtifactData :=
        ⟨task.id, getArg tc.args "title", getArg tc.args "type", getArg tc.args "content"⟩
      let obs := "Artifact \"" ++ getArg tc.args "title" ++ "\" created successfully."
      let subSteps1 := subSteps ++ [⟨thought, tc, obs⟩]
      ⟨(updateTask tasks task { subSteps := some subSteps1 }).tasks, subSteps1, none, [art], none, false⟩
    else if tc.name = "executeCode" then
      match execCode (getArg tc.args "language") (getArg tc.args "code") with
      | Except.ok result =>
        let art : ArtifactData :=
          ⟨task.id, "Execution Result: " ++ getArg tc.args "language", "live-preview",
            "code: " ++ getArg tc.args "code" ++ "; result: " ++ result⟩
        let obs := "Code executed successfully. Result: " ++ result.take 200 ++ "..."
        let subSteps1 := subSteps ++ [⟨thought, tc, obs⟩]
        ⟨(updateTask tasks task { subSteps := some subSteps1 }).tasks, subSteps1, none, [art], none, false⟩
      | Except.error e =>
        ⟨tasks, subSteps, some ("Error executing code: " ++ e), [], none, false⟩
    else
      match tools tc.name with
      | some impl =>
        match impl tc.args with
        | Except.ok result =>
          let subSteps1 := subSteps ++ [⟨thought, tc, result⟩]
          ⟨(updateTask tasks task { subSteps := some subSteps1 }).tasks, subSteps1, none, [], none, false⟩
        | Except.error e =>
          ⟨tasks, subSteps, some ("Error executing tool " ++ tc.name ++ ": " ++ e), [], none, false⟩
      | none =>
        let obs := "Tool \x27" ++ tc.name ++ "\x27 not found."
        let subSteps1 := subSteps ++ [⟨thought, tc, obs⟩]
        ⟨(updateTask tasks task { subSteps := some subSteps1 }).tasks, subSteps1, none, [], none, false⟩

/-- A previously recorded sub-step, present before the failing iteration. -/
def c4prior : SubStep := ⟨"p0", ⟨"noop", []⟩, "ok"⟩

/-- The task driven through the failing iteration. -/
def c4task : Task := { mkTask "g" TaskStatus.Executing [] with subSteps := [c4prior] }

/-- A tool surface whose only tool always rejects. -/
def c4tools : String → Option (List (String × String) → Except String String) :=
  fun n => if n = "badTool" then some (fun _ => Except.error "boom") else none

/-- An `executeCode` surface that always rejects. -/
def c4exec : String → String → Except String String := fun _ _ => Except.error "codeboom"

/-- Claim C4, counterexample: for a tool invocation that rejects (both the
generic dispatch and the `executeCode` branch), the iteration throws with
the observation text as the error message, but the observation is NOT
recorded on the task's sub-steps: the sub-step accumulator and the task
list come out unchanged, because the `throw` at part_000 lines 339/354
happens before the push/update at lines 362-365. -/
theorem claim4_counterexample :
    reactIteration c4tools c4exec 0 [c4task] c4task [c4prior]
        (OracleResult.step "th" ⟨"badTool", []⟩) =
      ⟨[c4task], [c4prior], some "Error executing tool badTool: boom", [], none, false⟩ ∧
    reactIteration c4tools c4exec 0 [c4task] c4task [c4prior]
        (OracleResult.step "th" ⟨"executeCode", []⟩) =
      ⟨[c4task], [c4prior], some "Error executing code: codeboom", [], none, false⟩ := by
  decide

/-- Claim C4, amended: a tool invocation that throws or rejects propagates
to the retry path with the observation text carried as the thrown error's
message, but that observation is not appended to the task's recorded
sub-steps — the sub-step list and the task list are exactly the ones from
before the iteration, for both the generic tool dispatch and the
`executeCode` branch. -/
theorem claim4_amended :
    (∀ (tools : String → Option (List (String × String) → Except String String))
        (execCode : String → String → Except String String) (now : Nat)
        (tasks : List Task) (task : Task) (subSteps : List SubStep)
        (thought : String) (tc : ToolCall)
        (impl : List (String × String) → Except String String) (e : String),
      tc.name ≠ "create_and_delegate_task_to_new_agent" →
      tc.name ≠ "createArtifact" →
      tc.name ≠ "executeCode" →
      tools tc.name = some impl →
      impl tc.args = Except.error e →
      reactIteration tools execCode now tasks task subSteps (OracleResult.step thought tc) =
        ⟨tasks, subSteps, some ("Error executing tool " ++ tc.name ++ ": " ++ e), [], none, false⟩) ∧
    (∀ (tools : String → Option (List (String × String) → Except String String))
        (execCode : String → String → Except String String) (now : Nat)
        (tasks : List Task) (task : Task) (subSteps : List SubStep)
        (thought : String) (tc : ToolCall) (e : String),
      tc.name = "executeCode" →
      execCode (getArg tc.args "language") (getArg tc.args "code") = Except.error e →
      reactIteration tools execCode now tasks task subSteps (OracleResult.step thought tc) =
        ⟨tasks, subSteps, some ("Error executing code: " ++ e), [], none, false⟩) := by
  constructor
  · intro tools execCode now tasks task subSteps thought tc impl e h1 h2 h3 htools himpl
    simp [reactIteration, h1, h2, h3, htools, himpl]
  · intro tools execCode now tasks task subSteps thought tc e hname hcode
    simp [reactIteration, hname, hcode]

/-- Claim C4, witness: the amended statement applied to the concrete
always-rejecting tool surface. -/
theorem claim4_witness :
    reactIteration c4tools c4exec 7 [c4task] c4task [c4prior]
        (OracleResult.step "w" ⟨"badTool", [("k", "v")]⟩) =
      ⟨[c4task], [c4prior], some ("Error executing tool " ++ "badTool" ++ ": " ++ "boom"),
        [], none, false⟩ :=
  claim4_amended.1 c4tools c4exec 7 [c4task] c4task [c4prior] "w" ⟨"badTool", [("k", "v")]⟩
    (fun _ => Except.error "boom") "boom" (by decide) (by decide) (by decide) rfl rfl

/- ### A pointwise relation for operations that only force one status -/

/-- `StatusShadow c s s'` relates two task lists of the same length whose
entries agree except that some entries of `s'` may have had their status
forced to `c`.  `stop()` and cascading cancellation only force `Cancelled`;
the stall branch only forces `Error`. -/
def StatusShadow (c : TaskStatus) (s s' : List Task) : Prop :=
  List.Forall₂ (fun a b => b = a ∨ b = { a with status := c }) s s'

theorem StatusShadow.refl (c : TaskStatus) (s : List Task) : StatusShadow c s s := by
  induction s with
  | nil => exact List.Forall₂.nil
  | cons hd tl ih => exact List.Forall₂.cons (Or.inl rfl) ih

theorem shadow_trans {c : TaskStatus} {s t u : List Task}
    (h1 : StatusShadow c s t) (h2 : StatusShadow c t u) : StatusShadow c s u := by
  induction h1 generalizing u with
  | nil => cases h2; exact List.Forall₂.nil
  | cons hab htl ih =>
    cases h2 with
    | cons hbc htl2 =>
      refine List.Forall₂.cons ?_ (ih htl2)
      rcases hab with rfl | rfl <;> rcases hbc with rfl | rfl <;> simp

theorem applyUpdates_status_only (t : Task) (c : TaskStatus) :
    applyUpdates t { status := some c } = { t with status := c } := rfl

theorem StatusShadow.updateList (c : TaskStatus) (s : List Task) (i : String) :
    StatusShadow c s (updateList s i { status := some c }) := by
  induction s with
  | nil => exact List.Forall₂.nil
  | cons hd tl ih =>
    refine List.Forall₂.cons ?_ ih
    by_cases h : hd.id = i <;> simp [h, applyUpdates_status_only]

theorem StatusShadow.map_id {c : TaskStatus} {s s' : List Task}
    (h : StatusShadow c s s') : s'.map Task.id = s.map Task.id := by
  induction h with
  | nil => rfl
  | cons hab _ ih =>
    simp only [List.map_cons, ih, List.cons.injEq, and_true]
    rcases hab with rfl | rfl <;> rfl

theorem StatusShadow.find? {c : TaskStatus} {s s' : List Task}
    (h : StatusShadow c s s') (j : String) {b : Task}
    (hb : s'.find? (byId j) = some b) :
    ∃ a, s.find? (byId j) = some a ∧ (b = a ∨ b = { a with status := c }) := by
  induction h with
  | nil => cases hb
  | cons hab htl ih =>
    rename_i a0 b0 l1 l2
    rw [List.find?_cons] at hb
    have hid : b0.id = a0.id := by rcases hab with rfl | rfl <;> rfl
    by_cases hj : byId j a0 = true
    · have : byId j b0 = true := by simpa [byId, hid] using hj
      rw [this] at hb
      refine ⟨a0, ?_, ?_⟩
      · rw [List.find?_cons, hj]
      · cases hb; exact hab
    · have : byId j b0 = false := by
        simp only [byId, beq_eq_false_iff_ne, ne_eq]
        rw [hid]
        simpa [byId] using hj
      rw [this] at hb
      obtain ⟨a, ha, hrel⟩ := ih hb
      refine ⟨a, ?_, hrel⟩
      rw [List.find?_cons]
      simp only [Bool.not_eq_true] at hj
      rw [hj]
      exact ha

theorem StatusShadow.dependencies {c : TaskStatus} {a b : Task}
    (h : b = a ∨ b = { a with status := c }) : b.dependencies = a.dependencies := by
  rcases h with rfl | rfl <;> rfl

/-- A fold whose every step either leaves the accumulator alone or applies
a status-forcing update preserves `StatusShadow`. -/
theorem StatusShadow.foldl {c : TaskStatus} (g : List Task → Task → List Task)
    (hg : ∀ acc t, StatusShadow c acc (g acc t)) (l acc : List Task) :
    StatusShadow c acc (l.foldl g acc) := by
  induction l generalizing acc with
  | nil => exact StatusShadow.refl c acc
  | cons hd tl ih => exact shadow_trans (hg acc hd) (ih (g acc hd))

/- ### stop() and the stall branch (part_000 lines 100-108 and 63-69) -/

/-- The statuses that `AgentExecutor.stop` (part_000 line 103) forces to
`Cancelled`. -/
def stopCancels (st : TaskStatus) : Bool :=
  decide (st = TaskStatus.Executing) || decide (st = TaskStatus.Queued) ||
    decide (st = TaskStatus.PendingReview) || decide (st = TaskStatus.Delegating)

/-- `AgentExecutor.stop` (part_000 lines 100-108): iterate over the task
snapshot, cancelling through `updateTask` every task whose (pre-iteration)
status is `Executing`, `Queued`, `Pending Review` or `Delegating`. -/
def stopRun (tasks : List Task) : List Task :=
  tasks.foldl
    (fun acc t =>
      if stopCancels t.status then (updateTask acc t { status := some TaskStatus.Cancelled }).tasks
      else acc)
    tasks

/-- The stall branch of the scheduler loop (part_000 lines 66-68): force
every (pre-iteration) `Queued` task to `Error` through `updateTask`. -/
def stallErrors (tasks : List Task) : List Task :=
  tasks.foldl
    (fun acc t =>
      if t.status = TaskStatus.Queued then (updateTask acc t { status := some TaskStatus.Error }).tasks
      else acc)
    tasks

theorem stopRun_shadow (tasks : List Task) : StatusShadow TaskStatus.Cancelled tasks (stopRun tasks) := by
  refine StatusShadow.foldl _ (fun acc t => ?_) tasks tasks
  by_cases h : stopCancels t.status = true
  · simp only [stopRun, h, if_true]
    rw [updateTask_tasks]
    exact StatusShadow.updateList _ acc t.id
  · simp only [stopRun, Bool.not_eq_true] at *
    rw [if_neg (by simp [h])]
    exact StatusShadow.refl _ acc

theorem stallErrors_shadow (tasks : List Task) : StatusShadow TaskStatus.Error tasks (stallErrors tasks) := by
  refine StatusShadow.foldl _ (fun acc t => ?_) tasks tasks
  by_cases h : t.status = TaskStatus.Queued
  · rw [if_pos h, updateTask_tasks]
    exact StatusShadow.updateList _ acc t.id
  · rw [if_neg h]
    exact StatusShadow.refl _ acc

theorem StatusShadow.length_eq {c : TaskStatus} {s s' : List Task}
    (h : StatusShadow c s s') : s.length = s'.length := by
  unfold StatusShadow at h
  exact h.length_eq

/-- Every task becomes `Error` when the stall branch runs on an all-`Queued`
task list (each fold step forces all tasks carrying the processed id). -/
theorem stallErrors_all_error {tasks : List Task}
    (hq : ∀ t ∈ tasks, t.status = TaskStatus.Queued) :
    ∀ t ∈ stallErrors tasks, t.status = TaskStatus.Error := by
  suffices h : ∀ (l acc : List Task),
      (∀ r ∈ l, r.status = TaskStatus.Queued) →
      (∀ t ∈ acc, t.status = TaskStatus.Error ∨ ∃ r ∈ l, r.id = t.id) →
      ∀ t ∈ l.foldl
          (fun acc t =>
            if t.status = TaskStatus.Queued
            then (updateTask acc t { status := some TaskStatus.Error }).tasks else acc)
          acc,
        t.status = TaskStatus.Error by
    intro t ht
    exact h tasks tasks hq (fun t' ht' => Or.inr ⟨t', ht', rfl⟩) t ht
  intro l
  induction l with
  | nil =>
    intro acc _ hinv t ht
    rcases hinv t ht with he | ⟨r, hr, -⟩
    · exact he
    · cases hr
  | cons r rest ih =>
    intro acc hql hinv
    rw [List.foldl_cons, if_pos (hql r (List.mem_cons_self r rest)), updateTask_tasks]
    apply ih
    · exact fun x hx => hql x (List.mem_cons_of_mem _ hx)
    intro t' ht'
    simp only [updateList, List.mem_map] at ht'
    obtain ⟨t, ht, rfl⟩ := ht'
    by_cases hid : t.id = r.id
    · left
      rw [if_pos hid, applyUpdates_status_only]
    · rw [if_neg hid]
      rcases hinv t ht with he | ⟨r', hr', hid'⟩
      · exact Or.inl he
      · rcases List.mem_cons.mp hr' with rfl | hrest
        · exact absurd hid'.symm hid
        · exact Or.inr ⟨r', hrest, hid'⟩

/- ### The scheduler loop when nothing can be admitted (part_000 lines 36-97) -/

/-- The loop condition of `AgentExecutor.run` (part_000 line 36):
`['Queued', 'Executing', 'Delegating'].includes(t.status)`. -/
def loopActive (t : Task) : Bool :=
  decide (t.status = TaskStatus.Queued) || decide (t.status = TaskStatus.Executing) ||
    decide (t.status = TaskStatus.Delegating)

/-- The outcome of the scheduler loop in a run in which no task is ever
admitted: either the run completes (with the final task list and the
ordered callback events), or some task was ready and the model defers to
the Step Executor. -/
inductive NoExecOutcome where
  | completed (tasks : List Task) (events : List FinalEvent)
  | wouldAdmit (ready : List Task)
deriving DecidableEq

/-- `AgentExecutor.run` (part_000 lines 36-97) specialized to the case in
which the in-flight registry is empty and no task is ready: if the loop
condition holds but the resolver returns nothing, the loop body reaches
lines 63-73 with an empty `activePromises` map; with a `Queued` task left,
that is the stall branch (`onFail(stall)` at line 65, every `Queued` task
forced to `Error` at lines 66-68, then `break`), followed by the final
status check of lines 82-97; otherwise the loop breaks at line 72 and only
the final check runs.  When a task is ready the loop would admit it and
this restricted model defers. -/
def runNoExec (initialTasks : List Task) : NoExecOutcome :=
  if initialTasks.any loopActive then
    match findReadyTasks initialTasks with
    | [] =>
      if initialTasks.any (fun t => decide (t.status = TaskStatus.Queued)) then
        let errored := stallErrors initialTasks
        NoExecOutcome.completed errored
          [FinalEvent.fail stallMessage, finalStatusCheck initialTasks errored]
      else
        NoExecOutcome.completed initialTasks [finalStatusCheck initialTasks initialTasks]
    | r => NoExecOutcome.wouldAdmit r
  else
    NoExecOutcome.completed initialTasks [finalStatusCheck initialTasks initialTasks]

/-- Claim C6: a dependency cycle among N `Queued` tasks with no external
dependencies (every task has at least one dependency and every dependency
id resolves inside the set) ends the scheduler loop after a single
iteration: `onFail` fires once with the stall diagnostic (distinct from the
per-count unresolved-task failure message), every task is forced to
`Error`, and the subsequent final status check fires no further callback. -/
theorem claim6_cycle_stall (tasks : List Task)
    (hne : tasks ≠ [])
    (hq : ∀ t ∈ tasks, t.status = TaskStatus.Queued)
    (hdep : ∀ t ∈ tasks, t.dependencies ≠ [])
    (hres : ∀ t ∈ tasks, ∀ d ∈ t.dependencies, ∃ u ∈ tasks, u.id = d) :
    runNoExec tasks =
      NoExecOutcome.completed (stallErrors tasks)
        [FinalEvent.fail stallMessage, FinalEvent.silent] ∧
    ∀ t ∈ stallErrors tasks, t.status = TaskStatus.Error := by
  have hall : ∀ t ∈ stallErrors tasks, t.status = TaskStatus.Error := stallErrors_all_error hq
  have hready : findReadyTasks tasks = [] := by
    refine List.filter_eq_nil.mpr fun t ht => ?_
    intro hr
    unfold isReady at hr
    rw [Bool.and_eq_true] at hr
    obtain ⟨-, hdeps⟩ := hr
    obtain ⟨d, hd⟩ := List.exists_mem_of_ne_nil _ (hdep t ht)
    have hpred := List.all_eq_true.mp hdeps d hd
    obtain ⟨u, hu, hud⟩ := hres t ht d hd
    have hsome : (tasks.find? (byId d)).isSome := by
      rw [List.find?_isSome]
      exact ⟨u, hu, by simp [byId, hud]⟩
    obtain ⟨u', hu'⟩ := Option.isSome_iff_exists.mp hsome
    rw [hu'] at hpred
    have hmem := List.mem_of_find?_eq_some hu'
    simp only [decide_eq_true_eq] at hpred
    rw [hq u' hmem] at hpred
    simp at hpred
  obtain ⟨t0, ht0⟩ := List.exists_mem_of_ne_nil _ hne
  have hact : tasks.any loopActive = true :=
    List.any_eq_true.mpr ⟨t0, ht0, by simp [loopActive, hq t0 ht0]⟩
  have hqa : (tasks.any fun t => decide (t.status = TaskStatus.Queued)) = true :=
    List.any_eq_true.mpr ⟨t0, ht0, by simp [hq t0 ht0]⟩
  have hnonempty : stallErrors tasks ≠ [] := by
    intro h
    have := StatusShadow.length_eq (stallErrors_shadow tasks)
    rw [h] at this
    exact hne (List.eq_nil_of_length_eq_zero this)
  obtain ⟨e0, he0⟩ := List.exists_mem_of_ne_nil _ hnonempty
  have hsilent : finalStatusCheck tasks (stallErrors tasks) = FinalEvent.silent := by
    have h1 : allDoneOrCancelled (stallErrors tasks) = false := by
      refine Bool.eq_false_iff.mpr fun h => ?_
      have := List.all_eq_true.mp h e0 he0
      rw [hall e0 he0] at this
      simp at this
    have h2 : unresolvedCount (stallErrors tasks) = 0 := by
      unfold unresolvedCount
      rw [List.filter_eq_nil.mpr fun t ht => by simp [hall t ht]]
      rfl
    have h3 : ((stallErrors tasks).any fun t => decide (t.status = TaskStatus.Error)) = true :=
      List.any_eq_true.mpr ⟨e0, he0, by simp [hall e0 he0]⟩
    unfold finalStatusCheck
    rw [if_neg (by simp [h1]), if_neg (by omega), if_neg (by simp [h3])]
  refine ⟨?_, hall⟩
  unfold runNoExec
  rw [if_pos hact, hready]
  simp only [hqa, if_true, hsilent]

/-- Claim C6, witness: the two-task cycle of the spec's example scenario,
`[X(dep: Y), Y(dep: X)]`, run through the restricted scheduler model. -/
theorem claim6_witness :
    runNoExec [mkTask "x" TaskStatus.Queued ["y"], mkTask "y" TaskStatus.Queued ["x"]] =
      NoExecOutcome.completed
        (stallErrors [mkTask "x" TaskStatus.Queued ["y"], mkTask "y" TaskStatus.Queued ["x"]])
        [FinalEvent.fail stallMessage, FinalEvent.silent] ∧
    ∀ t ∈ stallErrors [mkTask "x" TaskStatus.Queued ["y"], mkTask "y" TaskStatus.Queued ["x"]],
      t.status = TaskStatus.Error :=
  claim6_cycle_stall _ (by decide) (by decide) (by decide) (by decide)

/- ### executeTask under an always-failing executor (part_000 lines 194-238) -/

/-- `AgentExecutor.executeTask` (part_000 lines 194-238) specialized to an
execution body that always throws (the modelled run of claim C7), with an
explicit fuel parameter standing in for the recursion at line 228 (the
recursion re-invokes `executeTask` on the freshly re-fetched task).  The
double-check at line 196 returns without an attempt when the current status
of the task's id is not `Queued`; otherwise the task is set `Executing`,
the body throws, and the catch either re-queues with `retryCount + 1`
(computed from the captured `task` argument, line 221) and recurses, or
sets `Error` on exhaustion.  The second component counts execution
attempts.  The fuel case `0` is unreachable for the fuel chosen by
`executeTaskAlwaysFails` (shown by `execFailGo_spec`). -/
def execFailGo : Nat → List Task → Task → List Task × Nat
  | 0, tasks, _ => (tasks, 0)
  | fuel + 1, tasks, task =>
    match tasks.find? (byId task.id) with
    | none => (tasks, 0)
    | some cur =>
      if cur.status = TaskStatus.Queued then
        let tasks1 := (updateTask tasks task { status := some TaskStatus.Executing }).tasks
        if task.retryCount < task.maxRetries then
          let tasks2 := (updateTask tasks1 task
            { status := some TaskStatus.Queued, retryCount := some (task.retryCount + 1) }).tasks
          match tasks2.find? (byId task.id) with
          | some nextTask =>
            let r := execFailGo fuel tasks2 nextTask
            (r.1, r.2 + 1)
          | none => (tasks2, 1)
        else
          ((updateTask tasks1 task { status := some TaskStatus.Error }).tasks, 1)
      else (tasks, 0)

/-- `executeTask` on an always-failing task, with enough fuel for the full
retry ladder. -/
def executeTaskAlwaysFails (tasks : List Task) (task : Task) : List Task × Nat :=
  execFailGo (task.maxRetries - task.retryCount + 1) tasks task

theorem find?_updateList_self {tasks : List Task} {t : Task} (u : TaskUpdates)
    (h : tasks.find? (byId t.id) = some t) :
    (updateList tasks t.id u).find? (byId t.id) = some (applyUpdates t u) := by
  rw [find?_updateList, h]
  simp

theorem nodup_updateList {tasks : List Task} (i : String) (u : TaskUpdates)
    (h : (tasks.map Task.id).Nodup) : ((updateList tasks i u).map Task.id).Nodup := by
  rw [updateList_map_id]
  exact h

/-- The retry ladder of an always-failing task: with
`k = maxRetries - retryCount` remaining retries, exactly `k + 1` attempts
are made and the task ends `Error` with `retryCount` advanced by `k`. -/
theorem execFailGo_spec (k : Nat) : ∀ (tasks : List Task) (t : Task),
    (tasks.map Task.id).Nodup →
    tasks.find? (byId t.id) = some t →
    t.status = TaskStatus.Queued →
    t.maxRetries - t.retryCount = k →
    (execFailGo (k + 1) tasks t).2 = k + 1 ∧
    (execFailGo (k + 1) tasks t).1.find? (byId t.id) =
      some { t with status := TaskStatus.Error, retryCount := t.retryCount + k } := by
  induction k with
  | zero =>
    intro tasks t hnd hfind hq hk
    have hnr : ¬ t.retryCount < t.maxRetries := by omega
    have h1 := find?_updateList_self { status := some TaskStatus.Executing } hfind
    have h2 := @find?_updateList_self
      (updateList tasks t.id { status := some TaskStatus.Executing })
      (applyUpdates t { status := some TaskStatus.Executing })
      { status := some TaskStatus.Error }
      (by rw [applyUpdates_id]; exact h1)
    rw [applyUpdates_id] at h2
    rw [execFailGo]
    simp only [hfind, hq, if_true, if_neg hnr, updateTask_tasks]
    refine ⟨by trivial, ?_⟩
    rw [h2]
    rfl
  | succ k ih =>
    intro tasks t hnd hfind hq hk
    have hr : t.retryCount < t.maxRetries := by omega
    have h1 := find?_updateList_self { status := some TaskStatus.Executing } hfind
    have h2 : (updateList (updateList tasks t.id { status := some TaskStatus.Executing }) t.id
        { status := some TaskStatus.Queued, retryCount := some (t.retryCount + 1) }).find? (byId t.id)
        = some { t with status := TaskStatus.Queued, retryCount := t.retryCount + 1 } := by
      have := @find?_updateList_self
        (updateList tasks t.id { status := some TaskStatus.Executing })
        (applyUpdates t { status := some TaskStatus.Executing })
        { status := some TaskStatus.Queued, retryCount := some (t.retryCount + 1) }
        (by rw [applyUpdates_id]; exact h1)
      rw [applyUpdates_id] at this
      exact this
    have hnd2 : (((updateList (updateList tasks t.id { status := some TaskStatus.Executing }) t.id
        { status := some TaskStatus.Queued, retryCount := some (t.retryCount + 1) })).map Task.id).Nodup :=
      nodup_updateList _ _ (nodup_updateList _ _ hnd)
    have hres := ih _ ({ t with status := TaskStatus.Queued, retryCount := t.retryCount + 1 })
      hnd2 h2 rfl (show t.maxRetries - (t.retryCount + 1) = k by omega)
    have hid' : ({ t with status := TaskStatus.Queued, retryCount := t.retryCount + 1 } : Task).id = t.id := rfl
    simp only [hid'] at hres
    rw [execFailGo]
    simp only [hfind, hq, if_true, if_pos hr, updateTask_tasks, h2]
    refine ⟨?_, ?_⟩
    · rw [hres.1]
    · rw [hres.2]
      have harith : t.retryCount + 1 + k = t.retryCount + (k + 1) := by omega
      rw [harith]

/-- Claim C7: a task with `maxRetries = 2` and `retryCount = 0` whose every
execution attempt throws is attempted exactly 3 times (1 initial + 2
retries), each caught error incrementing `retryCount` while
`retryCount < maxRetries`, and it ends with status `Error` and
`retryCount = 2` in the final task list of the run. -/
theorem claim7_retry_exhaustion (tasks : List Task) (t : Task)
    (hnd : (tasks.map Task.id).Nodup) (ht : t ∈ tasks)
    (hq : t.status = TaskStatus.Queued) (hrc : t.retryCount = 0) (hmr : t.maxRetries = 2) :
    (executeTaskAlwaysFails tasks t).2 = 3 ∧
    (executeTaskAlwaysFails tasks t).1.find? (byId t.id) =
      some { t with status := TaskStatus.Error, retryCount := 2 } := by
  have hfind := find?_byId_of_nodup hnd ht
  have h := execFailGo_spec 2 tasks t hnd hfind hq (by omega)
  have hk : t.maxRetries - t.retryCount = 2 := by omega
  unfold executeTaskAlwaysFails
  rw [hk]
  refine ⟨h.1, ?_⟩
  rw [h.2, hrc]

/-- Claim C7, witness: a single always-failing task with `maxRetries = 2`. -/
theorem claim7_witness :
    (executeTaskAlwaysFails [{ mkTask "r" TaskStatus.Queued [] with maxRetries := 2 }]
        { mkTask "r" TaskStatus.Queued [] with maxRetries := 2 }).2 = 3 ∧
    (executeTaskAlwaysFails [{ mkTask "r" TaskStatus.Queued [] with maxRetries := 2 }]
        { mkTask "r" TaskStatus.Queued [] with maxRetries := 2 }).1.find?
        (byId ({ mkTask "r" TaskStatus.Queued [] with maxRetries := 2 } : Task).id) =
      some { ({ mkTask "r" TaskStatus.Queued [] with maxRetries := 2 } : Task) with
        status := TaskStatus.Error, retryCount := 2 } :=
  claim7_retry_exhaustion _ _ (by decide) (by decide) (by decide) (by decide) (by decide)

/-- Claim C10: the single task-update function is frame-preserving.
Entry-wise over the list, a task whose id differs from the target's is
returned unchanged and a task with the target id receives exactly the
partial update; the partial update changes only the fields present in the
update object (`id`, `title`, `agentRole`, `agentName`, `estimatedTime`,
`details`, `dependencies`, `maxRetries`, `delegatorTaskId` always survive,
and absent `status`/`retryCount`/`subSteps` fields keep their old values);
when a task with the target id exists, the observer is notified with the
updated snapshot of the first match, which is also returned; when no task
with the target id exists, the list is unchanged and no notification
happens. -/
theorem claim10_updateTask_frame (tasks : List Task) (task : Task) (u : TaskUpdates) :
    List.Forall₂ (fun a b => (a.id ≠ task.id → b = a) ∧ (a.id = task.id → b = applyUpdates a u))
      tasks (updateTask tasks task u).tasks ∧
    (∀ t : Task, (applyUpdates t u).id = t.id ∧ (applyUpdates t u).title = t.title ∧
      (applyUpdates t u).agentRole = t.agentRole ∧ (applyUpdates t u).agentName = t.agentName ∧
      (applyUpdates t u).estimatedTime = t.estimatedTime ∧ (applyUpdates t u).details = t.details ∧
      (applyUpdates t u).dependencies = t.dependencies ∧
      (applyUpdates t u).maxRetries = t.maxRetries ∧
      (applyUpdates t u).delegatorTaskId = t.delegatorTaskId ∧
      (applyUpdates t u).status = u.status.getD t.status ∧
      (applyUpdates t u).retryCount = u.retryCount.getD t.retryCount ∧
      (applyUpdates t u).subSteps = u.subSteps.getD t.subSteps) ∧
    (∀ m, tasks.find? (byId task.id) = some m →
      (updateTask tasks task u).notified = some (applyUpdates m u) ∧
      (updateTask tasks task u).returned = applyUpdates m u) ∧
    (tasks.find? (byId task.id) = none →
      (updateTask tasks task u).tasks = tasks ∧ (updateTask tasks task u).notified = none) := by
  refine ⟨?_, ?_, ?_, ?_⟩
  · rw [updateTask_tasks]
    induction tasks with
    | nil => exact List.Forall₂.nil
    | cons hd tl ih =>
      refine List.Forall₂.cons ?_ ih
      constructor
      · intro hne
        simp only [if_neg hne]
      · intro he
        simp only [if_pos he]
  · intro t
    exact ⟨rfl, rfl, rfl, rfl, rfl, rfl, rfl, rfl, rfl, rfl, rfl, rfl⟩
  · intro m hm
    obtain ⟨hmid, hmmem⟩ := find?_byId_eq_some hm
    have hany : tasks.any (byId task.id) = true :=
      List.any_eq_true.mpr ⟨m, hmmem, by simp [byId, hmid]⟩
    have hfind : (tasks.map fun t => if t.id = task.id then applyUpdates t u else t).find?
        (byId task.id) = some (applyUpdates m u) := by
      have := find?_updateList tasks task.id u task.id
      rw [hm] at this
      simp only [updateList] at this
      rw [this]
      simp [hmid]
    simp only [updateTask, hany, hfind, if_true]
    exact ⟨by trivial, by trivial⟩
  · intro hnone
    have hany : tasks.any (byId task.id) = false := by
      rw [List.any_eq_false]
      intro x hx
      intro hbx
      rw [List.find?_eq_none] at hnone
      exact hnone x hx hbx
    simp only [updateTask, hany, Bool.false_eq_true, if_false]
    exact ⟨by trivial, by trivial⟩

/-- Claim C10, witness: updating one of two tasks with a `Done` status
patch notifies the updated snapshot and returns it. -/
theorem claim10_witness :
    (updateTask [mkTask "a" TaskStatus.Queued [], mkTask "b" TaskStatus.Queued []]
        (mkTask "a" TaskStatus.Queued []) { status := some TaskStatus.Done }).notified =
      some (applyUpdates (mkTask "a" TaskStatus.Queued []) { status := some TaskStatus.Done }) ∧
    (updateTask [mkTask "a" TaskStatus.Queued [], mkTask "b" TaskStatus.Queued []]
        (mkTask "a" TaskStatus.Queued []) { status := some TaskStatus.Done }).returned =
      applyUpdates (mkTask "a" TaskStatus.Queued []) { status := some TaskStatus.Done } :=
  (claim10_updateTask_frame [mkTask "a" TaskStatus.Queued [], mkTask "b" TaskStatus.Queued []]
    (mkTask "a" TaskStatus.Queued []) { status := some TaskStatus.Done }).2.2.1
    (mkTask "a" TaskStatus.Queued []) (by decide)

/- ### Cascading cancellation (part_000 lines 110-131) -/

/-- The number of tasks not yet `Cancelled` — the quantity that strictly
decreases on every productive call of `recursivelyCancel`. -/
def countNC (tasks : List Task) : Nat :=
  tasks.countP fun t => decide (¬ t.status = TaskStatus.Cancelled)

/-- `recursivelyCancel` inside `AgentExecutor.cancelTask` (part_000 lines
116-127): look the id up; if the task exists and is not already
`Cancelled`, cancel it through `updateTask`, then recurse into every task
(of the updated list) whose `dependencies` contain the id.  The source
recursion terminates because every productive call first cancels a
non-`Cancelled` task and already-`Cancelled` tasks are skipped; this is
embedded with an explicit fuel parameter, and every lemma below carries the
fuel bound `countNC tasks < fuel` under which the fuel case `0` is
unreachable. -/
def cancelGo : Nat → List Task → String → List Task
  | 0, tasks, _ => tasks
  | fuel + 1, tasks, i =>
    match tasks.find? (byId i) with
    | none => tasks
    | some task =>
      if task.status = TaskStatus.Cancelled then tasks
      else
        let tasks1 := (updateTask tasks task { status := some TaskStatus.Cancelled }).tasks
        let dependents := tasks1.filter fun t => t.dependencies.contains i
        dependents.foldl (fun acc dep => cancelGo fuel acc dep.id) tasks1

/-- `AgentExecutor.cancelTask` (part_000 lines 110-131): no-op when the id
does not resolve; otherwise run the recursive cancellation.  The fuel
`tasks.length + 1` strictly dominates `countNC tasks`, so the fuel case is
never reached (see the lemmas below). -/
def cancelTask (tasks : List Task) (taskId : String) : List Task :=
  match tasks.find? (byId taskId) with
  | none => tasks
  | some _ => cancelGo (tasks.length + 1) tasks taskId

theorem find?_updateList_ne {tasks : List Task} {i : String} (u : TaskUpdates) {j : String}
    (h : j ≠ i) : (updateList tasks i u).find? (byId j) = tasks.find? (byId j) := by
  rw [find?_updateList]
  cases hf : tasks.find? (byId j) with
  | none => rfl
  | some t =>
    have ht := (find?_byId_eq_some hf).1
    simp [ht, h]

theorem find?_byId_isSome {tasks : List Task} {i : String} :
    (tasks.find? (byId i)).isSome ↔ i ∈ tasks.map Task.id := by
  rw [List.find?_isSome, List.mem_map]
  constructor
  · rintro ⟨x, hx, hb⟩
    exact ⟨x, hx, by simpa [byId] using hb⟩
  · rintro ⟨x, hx, hb⟩
    exact ⟨x, hx, by simp [byId, hb]⟩

theorem cancelGo_succ_none {f : Nat} {tasks : List Task} {i : String}
    (hf : tasks.find? (byId i) = none) : cancelGo (f + 1) tasks i = tasks := by
  simp only [cancelGo, hf]

theorem cancelGo_succ_cancelled {f : Nat} {tasks : List Task} {i : String} {task : Task}
    (hf : tasks.find? (byId i) = some task) (hc : task.status = TaskStatus.Cancelled) :
    cancelGo (f + 1) tasks i = tasks := by
  simp only [cancelGo, hf]
  rw [if_pos hc]

theorem cancelGo_succ_active {f : Nat} {tasks : List Task} {i : String} {task : Task}
    (hf : tasks.find? (byId i) = some task) (hc : ¬ task.status = TaskStatus.Cancelled) :
    cancelGo (f + 1) tasks i =
      ((updateList tasks i { status := some TaskStatus.Cancelled }).filter
          fun t => t.dependencies.contains i).foldl
        (fun acc dep => cancelGo f acc dep.id)
        (updateList tasks i { status := some TaskStatus.Cancelled }) := by
  simp only [cancelGo, hf]
  rw [if_neg hc, updateTask_tasks, (find?_byId_eq_some hf).1]

theorem cancelGo_shadow : ∀ (fuel : Nat) (tasks : List Task) (i : String),
    StatusShadow TaskStatus.Cancelled tasks (cancelGo fuel tasks i) := by
  intro fuel
  induction fuel with
  | zero => intro tasks i; exact StatusShadow.refl _ _
  | succ f ih =>
    intro tasks i
    cases hf : tasks.find? (byId i) with
    | none => rw [cancelGo_succ_none hf]; exact StatusShadow.refl _ _
    | some task =>
      by_cases hc : task.status = TaskStatus.Cancelled
      · rw [cancelGo_succ_cancelled hf hc]
        exact StatusShadow.refl _ _
      · rw [cancelGo_succ_active hf hc]
        refine shadow_trans (StatusShadow.updateList _ tasks i) ?_
        generalize (updateList tasks i { status := some TaskStatus.Cancelled }).filter
          (fun t => t.dependencies.contains i) = l
        generalize updateList tasks i { status := some TaskStatus.Cancelled } = acc
        induction l generalizing acc with
        | nil => exact StatusShadow.refl _ _
        | cons d rest ihl =>
          rw [List.foldl_cons]
          exact shadow_trans (ih acc d.id) (ihl _)

/-- A fold of `cancelGo` steps over any list only forces `Cancelled`. -/
theorem cancelGo_foldl_shadow (f : Nat) (l : List Task) (acc : List Task) :
    StatusShadow TaskStatus.Cancelled acc
      (l.foldl (fun acc dep => cancelGo f acc dep.id) acc) := by
  induction l generalizing acc with
  | nil => exact StatusShadow.refl _ _
  | cons d rest ihl =>
    rw [List.foldl_cons]
    exact shadow_trans (cancelGo_shadow f acc d.id) (ihl _)

theorem countNC_cons (t : Task) (l : List Task) :
    countNC (t :: l) = countNC l + (if t.status = TaskStatus.Cancelled then 0 else 1) := by
  unfold countNC
  rw [List.countP_cons]
  by_cases h : t.status = TaskStatus.Cancelled <;> simp [h]

theorem countNC_le_of_shadow {s s' : List Task}
    (h : StatusShadow TaskStatus.Cancelled s s') : countNC s' ≤ countNC s := by
  induction h with
  | nil => exact Nat.le_refl _
  | cons hab htl ih =>
    rename_i a b l1 l2
    rw [countNC_cons, countNC_cons]
    rcases hab with rfl | rfl
    · omega
    · have hb : ({ a with status := TaskStatus.Cancelled } : Task).status = TaskStatus.Cancelled := rfl
      rw [if_pos hb]
      by_cases ha : a.status = TaskStatus.Cancelled
      · rw [if_pos ha]
        omega
      · rw [if_neg ha]
        omega

theorem countNC_updateCancel_lt {tasks : List Task} {i : String} {task : Task}
    (hf : tasks.find? (byId i) = some task) (hc : ¬ task.status = TaskStatus.Cancelled) :
    countNC (updateList tasks i { status := some TaskStatus.Cancelled }) < countNC tasks := by
  induction tasks with
  | nil => cases hf
  | cons hd tl ih =>
    rw [List.find?_cons] at hf
    by_cases hb : byId i hd = true
    · simp only [hb] at hf
      cases hf
      have hid : task.id = i := by simpa [byId] using hb
      have hrw : updateList (task :: tl) i { status := some TaskStatus.Cancelled } =
          { task with status := TaskStatus.Cancelled } ::
            updateList tl i { status := some TaskStatus.Cancelled } := by
        simp only [updateList, List.map_cons, if_pos hid, applyUpdates_status_only]
      rw [hrw, countNC_cons, countNC_cons]
      have h1 : ({ task with status := TaskStatus.Cancelled } : Task).status =
          TaskStatus.Cancelled := rfl
      rw [if_pos h1, if_neg hc]
      have hle := countNC_le_of_shadow (StatusShadow.updateList TaskStatus.Cancelled tl i)
      omega
    · simp only [Bool.not_eq_true] at hb
      simp only [hb] at hf
      have hne : ¬ hd.id = i := by
        intro he
        rw [byId] at hb
        simp [he] at hb
      have hrw : updateList (hd :: tl) i { status := some TaskStatus.Cancelled } =
          hd :: updateList tl i { status := some TaskStatus.Cancelled } := by
        simp only [updateList, List.map_cons, if_neg hne]
      rw [hrw, countNC_cons, countNC_cons]
      have := ih hf
      omega

/-- The target of a productive `recursivelyCancel` call is `Cancelled` in
the result (and every later fold step keeps it `Cancelled`). -/
theorem cancelGo_root {f : Nat} {tasks : List Task} {i : String} {task : Task}
    (hf : tasks.find? (byId i) = some task) :
    ∃ t', (cancelGo (f + 1) tasks i).find? (byId i) = some t' ∧
      t'.status = TaskStatus.Cancelled := by
  by_cases hc : task.status = TaskStatus.Cancelled
  · rw [cancelGo_succ_cancelled hf hc]
    exact ⟨task, hf, hc⟩
  · rw [cancelGo_succ_active hf hc]
    have hid : task.id = i := (find?_byId_eq_some hf).1
    have h1 : (updateList tasks i { status := some TaskStatus.Cancelled }).find? (byId i) =
        some (applyUpdates task { status := some TaskStatus.Cancelled }) := by
      have h0 : tasks.find? (byId task.id) = some task := by rw [hid]; exact hf
      have := find?_updateList_self { status := some TaskStatus.Cancelled } h0
      rw [hid] at this
      exact this
    have hsh := cancelGo_foldl_shadow f
      ((updateList tasks i { status := some TaskStatus.Cancelled }).filter
        fun t => t.dependencies.contains i)
      (updateList tasks i { status := some TaskStatus.Cancelled })
    have hsome : (((updateList tasks i { status := some TaskStatus.Cancelled }).filter
        fun t => t.dependencies.contains i).foldl (fun acc dep => cancelGo f acc dep.id)
        (updateList tasks i { status := some TaskStatus.Cancelled })).find? (byId i) |>.isSome := by
      rw [find?_byId_isSome, StatusShadow.map_id hsh, ← find?_byId_isSome]
      rw [h1]
      rfl
    obtain ⟨b, hb⟩ := Option.isSome_iff_exists.mp hsome
    obtain ⟨a, ha, hrel⟩ := StatusShadow.find? hsh i hb
    rw [h1] at ha
    cases ha
    refine ⟨b, hb, ?_⟩
    rcases hrel with rfl | rfl <;> rfl

/- ### Cancellation closure: violations, reachability -/

/-- `BadId tasks j` says the task found under id `j` is not `Cancelled`
although it depends on some `Cancelled` task — a closure violation of the
cascading cancellation. -/
def BadId (tasks : List Task) (j : String) : Prop :=
  ∃ t, tasks.find? (byId j) = some t ∧ t.status ≠ TaskStatus.Cancelled ∧
    ∃ u ∈ tasks, u.status = TaskStatus.Cancelled ∧ u.id ∈ t.dependencies

/-- Transitive dependents: the ids reachable from `root` by repeatedly
following an edge from a task to any task whose `dependencies` contain its
id. -/
inductive ReachDep (tasks : List Task) (root : String) : String → Prop where
  | base : ReachDep tasks root root
  | step (i : String) (t : Task) : ReachDep tasks root i → t ∈ tasks → i ∈ t.dependencies →
      ReachDep tasks root t.id

theorem forall₂_mem_right {R : Task → Task → Prop} {s s' : List Task}
    (h : List.Forall₂ R s s') {b : Task} (hb : b ∈ s') : ∃ a ∈ s, R a b := by
  induction h with
  | nil => cases hb
  | cons hab htl ih =>
    rcases List.mem_cons.mp hb with rfl | hb'
    · exact ⟨_, List.mem_cons_self _ _, hab⟩
    · obtain ⟨a, ha, hr⟩ := ih hb'
      exact ⟨a, List.mem_cons_of_mem _ ha, hr⟩

theorem forall₂_imp_mem {R S : Task → Task → Prop} : ∀ {s s' : List Task},
    List.Forall₂ R s s' → (∀ a b, a ∈ s → b ∈ s' → R a b → S a b) →
    List.Forall₂ S s s' := by
  intro s s' h
  induction h with
  | nil => intro _; exact List.Forall₂.nil
  | cons hab htl ih =>
    intro himp
    refine List.Forall₂.cons
      (himp _ _ (List.mem_cons_self _ _) (List.mem_cons_self _ _) hab) ?_
    exact ih fun a b ha hb hr =>
      himp a b (List.mem_cons_of_mem _ ha) (List.mem_cons_of_mem _ hb) hr

theorem forall₂_comp {R S T : Task → Task → Prop} : ∀ {s t : List Task},
    List.Forall₂ R s t → ∀ {u : List Task}, List.Forall₂ S t u →
    (∀ a b c, R a b → S b c → T a c) → List.Forall₂ T s u := by
  intro s t h1
  induction h1 with
  | nil =>
    intro u h2 _
    cases h2
    exact List.Forall₂.nil
  | cons hab htl ih =>
    intro u h2 hcomp
    cases h2 with
    | cons hbc htl2 => exact List.Forall₂.cons (hcomp _ _ _ hab hbc) (ih htl2 hcomp)

theorem forall₂_self {R : Task → Task → Prop} (hR : ∀ a, R a a) :
    ∀ l : List Task, List.Forall₂ R l l := by
  intro l
  induction l with
  | nil => exact List.Forall₂.nil
  | cons hd tl ih => exact List.Forall₂.cons (hR hd) ih

theorem ReachDep_transport {s s' : List Task}
    (hrel : ∀ t ∈ s', ∃ a ∈ s, t.id = a.id ∧ t.dependencies = a.dependencies)
    {r x : String} (h : ReachDep s' r x) : ReachDep s r x := by
  induction h with
  | base => exact ReachDep.base
  | step i t hprev ht hdep ih =>
    obtain ⟨a, ha, hid, hdeps⟩ := hrel t ht
    rw [hid]
    exact ReachDep.step i a ih ha (hdeps ▸ hdep)

theorem ReachDep_trans {tasks : List Task} {r i x : String}
    (h1 : ReachDep tasks r i) (h2 : ReachDep tasks i x) : ReachDep tasks r x := by
  induction h2 with
  | base => exact h1
  | step j t hprev ht hdep ih => exact ReachDep.step j t ih ht hdep

theorem shadow_rel {c : TaskStatus} {s s' : List Task} (h : StatusShadow c s s') :
    ∀ t ∈ s', ∃ a ∈ s, t.id = a.id ∧ t.dependencies = a.dependencies := by
  intro t ht
  obtain ⟨a, ha, hrel⟩ := forall₂_mem_right h ht
  rcases hrel with h1 | h1
  · exact ⟨a, ha, by rw [h1], by rw [h1]⟩
  · exact ⟨a, ha, by rw [h1], by rw [h1]⟩

/-- Cancellation creates no closure violation: any violation present after
`recursivelyCancel` was already present before.  (The call cancels its
target and then recursively cancels every dependent, so the violations it
transiently creates are all discharged.) -/
theorem cancelGo_badId : ∀ (f : Nat) (tasks : List Task) (i : String),
    countNC tasks < f → ∀ j, BadId (cancelGo f tasks i) j → BadId tasks j := by
  intro f
  induction f with
  | zero => intro tasks i h; omega
  | succ f ih =>
    intro tasks i hcnt j hb
    cases hf : tasks.find? (byId i) with
    | none => rwa [cancelGo_succ_none hf] at hb
    | some task =>
      by_cases hc : task.status = TaskStatus.Cancelled
      · rwa [cancelGo_succ_cancelled hf hc] at hb
      · rw [cancelGo_succ_active hf hc] at hb
        have hlt := countNC_updateCancel_lt hf hc
        have hfpos : f ≠ 0 := by omega
        obtain ⟨f', rfl⟩ := Nat.exists_eq_succ_of_ne_zero hfpos
        have hcnt1 : countNC (updateList tasks i { status := some TaskStatus.Cancelled }) < f' + 1 := by
          omega
        have hfold : ∀ (l : List Task) (acc : List Task), countNC acc < f' + 1 →
            (∀ d ∈ l, d.id ∈ acc.map Task.id) →
            ∀ j', BadId (l.foldl (fun a d => cancelGo (f' + 1) a d.id) acc) j' →
              BadId acc j' ∧ j' ∉ l.map Task.id := by
          intro l
          induction l with
          | nil =>
            intro acc _ _ j' hb'
            exact ⟨hb', by simp⟩
          | cons d rest ihl =>
            intro acc hacnt hpres j' hb'
            rw [List.foldl_cons] at hb'
            have hsh : StatusShadow TaskStatus.Cancelled acc (cancelGo (f' + 1) acc d.id) :=
              cancelGo_shadow (f' + 1) acc d.id
            have hacnt' : countNC (cancelGo (f' + 1) acc d.id) < f' + 1 :=
              Nat.lt_of_le_of_lt (countNC_le_of_shadow hsh) hacnt
            have hpres' : ∀ x ∈ rest, x.id ∈ (cancelGo (f' + 1) acc d.id).map Task.id := by
              intro x hx
              rw [StatusShadow.map_id hsh]
              exact hpres x (List.mem_cons_of_mem _ hx)
            obtain ⟨hb'', hnotin⟩ := ihl _ hacnt' hpres' j' hb'
            refine ⟨ih acc d.id hacnt j' hb'', ?_⟩
            simp only [List.map_cons, List.mem_cons, not_or]
            refine ⟨?_, hnotin⟩
            intro hjd
            have hdp : d.id ∈ acc.map Task.id := hpres d (List.mem_cons_self _ _)
            rw [← find?_byId_isSome] at hdp
            obtain ⟨td, htd⟩ := Option.isSome_iff_exists.mp hdp
            obtain ⟨t', ht', htc'⟩ := @cancelGo_root f' _ d.id _ htd
            obtain ⟨tb, htb, htbnc, -⟩ := hb''
            rw [hjd] at htb
            rw [htb] at ht'
            cases ht'
            exact htbnc htc'
        have hpresD : ∀ d ∈ (updateList tasks i { status := some TaskStatus.Cancelled }).filter
            (fun t => t.dependencies.contains i),
            d.id ∈ (updateList tasks i { status := some TaskStatus.Cancelled }).map Task.id := by
          intro d hd
          exact List.mem_map.mpr ⟨d, List.mem_of_mem_filter hd, rfl⟩
        obtain ⟨hbT1, hnotinD⟩ := hfold _ _ hcnt1 hpresD j hb
        obtain ⟨t, hft, hnc, u, hu, huc, hdep⟩ := hbT1
        have hfl := find?_updateList tasks i { status := some TaskStatus.Cancelled } j
        rw [hft] at hfl
        cases h0 : tasks.find? (byId j) with
        | none =>
          rw [h0] at hfl
          cases hfl
        | some t0 =>
          rw [h0] at hfl
          simp only [Option.map_some'] at hfl
          by_cases ht0i : t0.id = i
          · rw [if_pos ht0i] at hfl
            rw [applyUpdates_status_only] at hfl
            cases hfl
            exact absurd rfl hnc
          · rw [if_neg ht0i] at hfl
            obtain rfl : t = t0 := Option.some.inj hfl
            simp only [updateList, List.mem_map] at hu
            obtain ⟨u0, hu0, rfl⟩ := hu
            by_cases hu0i : u0.id = i
            · exfalso
              have huid : (if u0.id = i then applyUpdates u0
                  { status := some TaskStatus.Cancelled } else u0).id = u0.id := by
                rw [if_pos hu0i]
                exact applyUpdates_id u0 _
              rw [huid, hu0i] at hdep
              have htmem : t ∈ (updateList tasks i { status := some TaskStatus.Cancelled }).filter
                  (fun x => x.dependencies.contains i) := by
                refine List.mem_filter.mpr ⟨List.mem_of_find?_eq_some hft, ?_⟩
                simpa using hdep
              have : j ∈ ((updateList tasks i { status := some TaskStatus.Cancelled }).filter
                  (fun x => x.dependencies.contains i)).map Task.id :=
                List.mem_map.mpr ⟨t, htmem, (find?_byId_eq_some hft).1⟩
              exact hnotinD this
            · rw [if_neg hu0i] at huc hdep
              exact ⟨t, h0, hnc, u0, hu0, huc, hdep⟩

/-- Pointwise description of one `recursivelyCancel` call: every entry is
unchanged, or had its status forced to `Cancelled` and is a transitive
dependent of the cancelled id. -/
def CancelRel (tasks : List Task) (i : String) (a b : Task) : Prop :=
  b = a ∨ (b = { a with status := TaskStatus.Cancelled } ∧ ReachDep tasks i a.id)

theorem CancelRel.id_dep {tasks : List Task} {i : String} {a b : Task}
    (h : CancelRel tasks i a b) : b.id = a.id ∧ b.dependencies = a.dependencies := by
  rcases h with rfl | ⟨rfl, -⟩ <;> exact ⟨rfl, rfl⟩

theorem forall₂_mem_left {R : Task → Task → Prop} {s s' : List Task}
    (h : List.Forall₂ R s s') {a : Task} (ha : a ∈ s) : ∃ b ∈ s', R a b := by
  induction h with
  | nil => cases ha
  | cons hab htl ih =>
    rcases List.mem_cons.mp ha with rfl | ha'
    · exact ⟨_, List.mem_cons_self _ _, hab⟩
    · obtain ⟨b, hb, hr⟩ := ih ha'
      exact ⟨b, List.mem_cons_of_mem _ hb, hr⟩

theorem cancelGo_reach : ∀ (f : Nat) (tasks : List Task) (i : String),
    List.Forall₂ (CancelRel tasks i) tasks (cancelGo f tasks i) := by
  intro f
  induction f with
  | zero => intro tasks i; exact forall₂_self (fun a => Or.inl rfl) tasks
  | succ f ih =>
    intro tasks i
    cases hf : tasks.find? (byId i) with
    | none =>
      rw [cancelGo_succ_none hf]
      exact forall₂_self (fun a => Or.inl rfl) tasks
    | some task =>
      by_cases hc : task.status = TaskStatus.Cancelled
      · rw [cancelGo_succ_cancelled hf hc]
        exact forall₂_self (fun a => Or.inl rfl) tasks
      · rw [cancelGo_succ_active hf hc]
        have hrel1 : ∀ l : List Task,
            List.Forall₂ (CancelRel tasks i) l (updateList l i { status := some TaskStatus.Cancelled }) := by
          intro l
          induction l with
          | nil => exact List.Forall₂.nil
          | cons hd tl ihl =>
            refine List.Forall₂.cons ?_ ihl
            by_cases hh : hd.id = i
            · exact Or.inr ⟨by simp [hh, applyUpdates_status_only], by rw [hh]; exact ReachDep.base⟩
            · exact Or.inl (by simp [hh])
        have hstep : ∀ (l : List Task) (acc : List Task),
            List.Forall₂ (CancelRel tasks i) tasks acc →
            (∀ d ∈ l, ReachDep tasks i d.id) →
            List.Forall₂ (CancelRel tasks i) tasks
              (l.foldl (fun a d => cancelGo f a d.id) acc) := by
          intro l
          induction l with
          | nil => intro acc hacc _; exact hacc
          | cons d rest ihl =>
            intro acc hacc hdl
            rw [List.foldl_cons]
            have hrelT : ∀ t ∈ acc, ∃ a0 ∈ tasks, t.id = a0.id ∧
                t.dependencies = a0.dependencies := by
              intro t ht
              obtain ⟨a0, ha0, hr⟩ := forall₂_mem_right hacc ht
              exact ⟨a0, ha0, hr.id_dep.1, hr.id_dep.2⟩
            have hd : ReachDep tasks i d.id := hdl d (List.mem_cons_self _ _)
            have hacc' : List.Forall₂ (CancelRel tasks i) tasks (cancelGo f acc d.id) := by
              refine forall₂_comp hacc (ih acc d.id) ?_
              intro a b c hab hbc
              rcases hbc with rfl | ⟨rfl, hreach⟩
              · exact hab
              · have hreachT : ReachDep tasks i b.id :=
                  ReachDep_trans hd (ReachDep_transport hrelT hreach)
                rcases hab with rfl | ⟨rfl, hra⟩
                · exact Or.inr ⟨rfl, hreachT⟩
                · exact Or.inr ⟨rfl, hra⟩
            exact ihl _ hacc' fun x hx => hdl x (List.mem_cons_of_mem _ hx)
        refine hstep _ _ (hrel1 tasks) ?_
        intro d hd
        obtain ⟨hdmem, hdcont⟩ := List.mem_filter.mp hd
        obtain ⟨a0, ha0, hid, hdeps⟩ := shadow_rel (StatusShadow.updateList TaskStatus.Cancelled tasks i) d hdmem
        have : i ∈ a0.dependencies := by
          rw [← hdeps]
          simpa using hdcont
        rw [hid]
        exact ReachDep.step i a0 ReachDep.base ha0 this

theorem cancelTask_shadow (tasks : List Task) (i : String) :
    StatusShadow TaskStatus.Cancelled tasks (cancelTask tasks i) := by
  unfold cancelTask
  cases hf : tasks.find? (byId i) with
  | none => exact StatusShadow.refl _ _
  | some t => exact cancelGo_shadow _ _ _

theorem cancelTask_reach (tasks : List Task) (i : String) :
    List.Forall₂ (CancelRel tasks i) tasks (cancelTask tasks i) := by
  unfold cancelTask
  cases hf : tasks.find? (byId i) with
  | none => exact forall₂_self (fun a => Or.inl rfl) tasks
  | some t => exact cancelGo_reach _ _ _

theorem cancelTask_badId (tasks : List Task) (i : String) (j : String)
    (hb : BadId (cancelTask tasks i) j) : BadId tasks j := by
  simp only [cancelTask] at hb
  cases hq : tasks.find? (byId i) with
  | none => simpa only [hq] using hb
  | some t =>
    simp only [hq] at hb
    refine cancelGo_badId (tasks.length + 1) tasks i ?_ j hb
    have hle : countNC tasks ≤ tasks.length := by
      unfold countNC
      exact List.countP_le_length _
    omega

theorem cancelTask_root {tasks : List Task} {i : String} {t : Task}
    (hf : tasks.find? (byId i) = some t) :
    ∃ t', (cancelTask tasks i).find? (byId i) = some t' ∧
      t'.status = TaskStatus.Cancelled := by
  obtain ⟨t', ht', htc⟩ := @cancelGo_root tasks.length _ i _ hf
  refine ⟨t', ?_, htc⟩
  simp only [cancelTask, hf]
  exact ht'

theorem cancelTask_idem (tasks : List Task) (i : String) :
    cancelTask (cancelTask tasks i) i = cancelTask tasks i := by
  cases hf : tasks.find? (byId i) with
  | none =>
    have h1 : cancelTask tasks i = tasks := by
      simp only [cancelTask, hf]
    rw [h1]
    exact h1
  | some t =>
    obtain ⟨t', ht', htc⟩ := @cancelGo_root tasks.length _ i _ hf
    have ht'' : (cancelTask tasks i).find? (byId i) = some t' := by
      simp only [cancelTask, hf]
      exact ht'
    simp only [cancelTask, hf] at ht'' ⊢
    rw [ht'']
    exact cancelGo_succ_cancelled ht'' htc

/-- Completeness of the cascade when no task is `Cancelled` beforehand:
every transitive dependent of the cancelled root ends `Cancelled`. -/
theorem cancelTask_complete (tasks : List Task) (rootId : String)
    (hnd : (tasks.map Task.id).Nodup)
    (hnc : ∀ t ∈ tasks, t.status ≠ TaskStatus.Cancelled)
    {t0 : Task} (hroot : tasks.find? (byId rootId) = some t0) :
    ∀ x, ReachDep tasks rootId x →
      ∃ t', (cancelTask tasks rootId).find? (byId x) = some t' ∧
        t'.status = TaskStatus.Cancelled := by
  have hnobad : ∀ j, ¬ BadId (cancelTask tasks rootId) j := by
    intro j hb
    obtain ⟨-, -, -, u, hu, huc, -⟩ := cancelTask_badId tasks rootId j hb
    exact hnc u hu huc
  have hndr : ((cancelTask tasks rootId).map Task.id).Nodup := by
    rw [StatusShadow.map_id (cancelTask_shadow tasks rootId)]
    exact hnd
  intro x hx
  induction hx with
  | base => exact cancelTask_root hroot
  | step i t hprev ht hdep ihx =>
    obtain ⟨u', hu', huc'⟩ := ihx
    obtain ⟨b, hbmem, hrel⟩ := forall₂_mem_left (cancelTask_shadow tasks rootId) ht
    have hbid : b.id = t.id := by rcases hrel with rfl | rfl <;> rfl
    have hbdeps : b.dependencies = t.dependencies := by rcases hrel with rfl | rfl <;> rfl
    have hfindb : (cancelTask tasks rootId).find? (byId t.id) = some b := by
      rw [← hbid]
      exact find?_byId_of_nodup hndr hbmem
    refine ⟨b, hfindb, ?_⟩
    by_contra hbnc
    apply hnobad t.id
    refine ⟨b, hfindb, hbnc, u', List.mem_of_find?_eq_some hu', huc', ?_⟩
    rw [(find?_byId_eq_some hu').1, hbdeps]
    exact hdep

/-- Claim C9, amended: `cancelTask(A.id)` terminates on every dependency
graph (cycles included), is idempotent, and — when no task is already
`Cancelled` — sets exactly the tasks reachable from A by dependent edges to
`Cancelled` and leaves every other task untouched.  Propagation stops at
tasks that were already `Cancelled` before the call, so with pre-`Cancelled`
intermediates a transitive dependent reachable only through them keeps its
status (see the counterexample). -/
theorem claim9_amended (tasks : List Task) (rootId : String)
    (hnd : (tasks.map Task.id).Nodup)
    (hroot : ∃ t ∈ tasks, t.id = rootId)
    (hnc : ∀ t ∈ tasks, t.status ≠ TaskStatus.Cancelled) :
    List.Forall₂ (fun a b =>
      (ReachDep tasks rootId a.id → b = { a with status := TaskStatus.Cancelled }) ∧
      (¬ ReachDep tasks rootId a.id → b = a)) tasks (cancelTask tasks rootId) ∧
    cancelTask (cancelTask tasks rootId) rootId = cancelTask tasks rootId := by
  obtain ⟨r0, hr0, hr0id⟩ := hroot
  have hfr : tasks.find? (byId rootId) = some r0 := by
    rw [← hr0id]
    exact find?_byId_of_nodup hnd hr0
  have hndr : ((cancelTask tasks rootId).map Task.id).Nodup := by
    rw [StatusShadow.map_id (cancelTask_shadow tasks rootId)]
    exact hnd
  refine ⟨?_, cancelTask_idem tasks rootId⟩
  refine forall₂_imp_mem (cancelTask_reach tasks rootId) ?_
  intro a b ha hb hrel
  constructor
  · intro hra
    obtain ⟨t', ht', htc'⟩ := cancelTask_complete tasks rootId hnd hnc hfr a.id hra
    have hfb : (cancelTask tasks rootId).find? (byId a.id) = some b := by
      rw [← hrel.id_dep.1]
      exact find?_byId_of_nodup hndr hb
    rw [hfb] at ht'
    obtain rfl := Option.some.inj ht'
    rcases hrel with rfl | ⟨h1, -⟩
    · exact absurd htc' (hnc _ ha)
    · exact h1
  · intro hnra
    rcases hrel with rfl | ⟨-, hra⟩
    · rfl
    · exact absurd hra hnra

/-- Claim C9, counterexample: with tasks `A (Queued)`, `C (already
Cancelled, depends on A)`, `D (Queued, depends on C)`, the id `d` is a
transitive dependent of `a` (it depends on the cancelled id `c`), yet
`cancelTask(a)` leaves D `Queued`: the cascade stops at the
already-`Cancelled` task C and never visits D. -/
theorem claim9_counterexample :
    ReachDep [mkTask "a" TaskStatus.Queued [], mkTask "c" TaskStatus.Cancelled ["a"],
      mkTask "d" TaskStatus.Queued ["c"]] "a" "d" ∧
    ((cancelTask [mkTask "a" TaskStatus.Queued [], mkTask "c" TaskStatus.Cancelled ["a"],
      mkTask "d" TaskStatus.Queued ["c"]] "a").find? (byId "c")).map Task.status =
      some TaskStatus.Cancelled ∧
    ((cancelTask [mkTask "a" TaskStatus.Queued [], mkTask "c" TaskStatus.Cancelled ["a"],
      mkTask "d" TaskStatus.Queued ["c"]] "a").find? (byId "d")).map Task.status =
      some TaskStatus.Queued := by
  refine ⟨?_, by decide, by decide⟩
  have h1 : ReachDep [mkTask "a" TaskStatus.Queued [], mkTask "c" TaskStatus.Cancelled ["a"],
      mkTask "d" TaskStatus.Queued ["c"]] "a" "c" :=
    ReachDep.step "a" (mkTask "c" TaskStatus.Cancelled ["a"]) ReachDep.base
      (by decide) (by decide)
  exact ReachDep.step "c" (mkTask "d" TaskStatus.Queued ["c"]) h1 (by decide) (by decide)

/-- Claim C9, witness: the amended statement on the chain A ← B with an
unrelated C. -/
theorem claim9_witness :
    List.Forall₂ (fun a b =>
      (ReachDep [mkTask "a" TaskStatus.Queued [], mkTask "b" TaskStatus.Queued ["a"],
        mkTask "c" TaskStatus.Queued []] "a" a.id →
        b = { a with status := TaskStatus.Cancelled }) ∧
      (¬ ReachDep [mkTask "a" TaskStatus.Queued [], mkTask "b" TaskStatus.Queued ["a"],
        mkTask "c" TaskStatus.Queued []] "a" a.id → b = a))
      [mkTask "a" TaskStatus.Queued [], mkTask "b" TaskStatus.Queued ["a"],
        mkTask "c" TaskStatus.Queued []]
      (cancelTask [mkTask "a" TaskStatus.Queued [], mkTask "b" TaskStatus.Queued ["a"],
        mkTask "c" TaskStatus.Queued []] "a") ∧
    cancelTask (cancelTask [mkTask "a" TaskStatus.Queued [], mkTask "b" TaskStatus.Queued ["a"],
        mkTask "c" TaskStatus.Queued []] "a") "a" =
      cancelTask [mkTask "a" TaskStatus.Queued [], mkTask "b" TaskStatus.Queued ["a"],
        mkTask "c" TaskStatus.Queued []] "a" :=
  claim9_amended _ _ (by decide) (by decide) (by decide)

theorem eq_of_mem_same_id {tasks : List Task} (hnd : (tasks.map Task.id).Nodup)
    {a b : Task} (ha : a ∈ tasks) (hb : b ∈ tasks) (hid : a.id = b.id) : a = b := by
  have h1 := find?_byId_of_nodup hnd ha
  have h2 := find?_byId_of_nodup hnd hb
  rw [hid] at h1
  rw [h1] at h2
  exact Option.some.inj h2

/-- `stop()` leaves a task alone when its status is not one of the four it
cancels (unique ids). -/
theorem stopRun_find?_preserved {tasks : List Task} (hnd : (tasks.map Task.id).Nodup)
    {t : Task} (ht : t ∈ tasks) (hkeep : stopCancels t.status = false) :
    (stopRun tasks).find? (byId t.id) = some t := by
  have key : ∀ (l acc : List Task), (∀ r ∈ l, r.id = t.id → stopCancels r.status = false) →
      (l.foldl
        (fun acc r =>
          if stopCancels r.status then (updateTask acc r { status := some TaskStatus.Cancelled }).tasks
          else acc)
        acc).find? (byId t.id) = acc.find? (byId t.id) := by
    intro l
    induction l with
    | nil => intro acc _; rfl
    | cons r rest ihl =>
      intro acc hl
      rw [List.foldl_cons]
      by_cases hr : stopCancels r.status = true
      · have hne : ¬ r.id = t.id := by
          intro he
          rw [hl r (List.mem_cons_self _ _) he] at hr
          cases hr
        rw [if_pos hr, updateTask_tasks,
          ihl _ fun x hx => hl x (List.mem_cons_of_mem _ hx)]
        exact find?_updateList_ne _ fun he => hne he.symm
      · rw [if_neg hr]
        exact ihl _ fun x hx => hl x (List.mem_cons_of_mem _ hx)
  unfold stopRun
  rw [key tasks tasks fun r hr he => by rw [eq_of_mem_same_id hnd hr ht he]; exact hkeep]
  exact find?_byId_of_nodup hnd ht

theorem cancel_eta {a : Task} (h : a.status = TaskStatus.Cancelled) :
    { a with status := TaskStatus.Cancelled } = a := by
  rw [← h]

/-- Claim C5, amended: terminal statuses are immutable for every operation
except cancellation of the task itself: (1) `stop()` does not change a
`Done`/`Error`/`Cancelled` task; (2) `cancelTask` changes a task only by
setting its status to `Cancelled`, and never changes a task that is
already `Cancelled` (so `Cancelled` is absorbing) — but, as the
counterexample shows, it does move `Done`/`Error` tasks to `Cancelled`;
(3) delegation reactivation does not touch a parent whose status is
terminal (only `Delegating` parents are updated); (4) `executeTask`
returns without any mutation or attempt when the task's current status is
terminal (its guard requires `Queued`). -/
theorem claim5_amended :
    (∀ (tasks : List Task), (tasks.map Task.id).Nodup → ∀ t ∈ tasks,
      (t.status = TaskStatus.Done ∨ t.status = TaskStatus.Error ∨
        t.status = TaskStatus.Cancelled) →
      (stopRun tasks).find? (byId t.id) = some t) ∧
    (∀ (tasks : List Task) (i : String),
      List.Forall₂ (fun a b => (a.status = TaskStatus.Cancelled → b = a) ∧
        (b = a ∨ b = { a with status := TaskStatus.Cancelled })) tasks (cancelTask tasks i)) ∧
    (∀ (tasks : List Task) (ct : Task) (pid : String) (p : Task),
      ct.delegatorTaskId = some pid → tasks.find? (byId pid) = some p →
      (p.status = TaskStatus.Done ∨ p.status = TaskStatus.Error ∨
        p.status = TaskStatus.Cancelled) →
      reactivateDelegatorIfAny tasks ct = tasks) ∧
    (∀ (tasks : List Task) (t cur : Task), tasks.find? (byId t.id) = some cur →
      (cur.status = TaskStatus.Done ∨ cur.status = TaskStatus.Error ∨
        cur.status = TaskStatus.Cancelled) →
      executeTaskAlwaysFails tasks t = (tasks, 0)) := by
  refine ⟨?_, ?_, ?_, ?_⟩
  · intro tasks hnd t ht hterm
    refine stopRun_find?_preserved hnd ht ?_
    rcases hterm with h | h | h <;> simp [stopCancels, h]
  · intro tasks i
    refine forall₂_imp_mem (cancelTask_shadow tasks i) ?_
    intro a b _ _ hrel
    refine ⟨?_, hrel⟩
    intro hac
    rcases hrel with rfl | rfl
    · rfl
    · exact cancel_eta hac
  · intro tasks ct pid p hdel hfind hterm
    unfold reactivateDelegatorIfAny
    rw [hdel]
    simp only [hfind]
    rw [if_neg (by rcases hterm with h | h | h <;> simp [h])]
  · intro tasks t cur hfind hterm
    unfold executeTaskAlwaysFails
    rw [execFailGo]
    simp only [hfind]
    rw [if_neg (by rcases hterm with h | h | h <;> simp [h])]

/-- Claim C5, counterexample: `cancelTask` on a task that is already `Done`
moves it to `Cancelled`, so a terminal status is not immutable. -/
theorem claim5_counterexample :
    (mkTask "t" TaskStatus.Done []).status = TaskStatus.Done ∧
    ((cancelTask [mkTask "t" TaskStatus.Done []] "t").find? (byId "t")).map Task.status =
      some TaskStatus.Cancelled := by
  decide

/-- Claim C5, witness: `stop()` on a list with one `Done` and one `Queued`
task leaves the `Done` task untouched. -/
theorem claim5_witness :
    (stopRun [mkTask "d" TaskStatus.Done [], mkTask "q" TaskStatus.Queued []]).find?
      (byId (mkTask "d" TaskStatus.Done []).id) = some (mkTask "d" TaskStatus.Done []) :=
  claim5_amended.1 [mkTask "d" TaskStatus.Done [], mkTask "q" TaskStatus.Queued []]
    (by decide) (mkTask "d" TaskStatus.Done []) (by decide) (by decide)

/- ### The scheduler's task-state transitions (claim C8) -/

/-- Statuses a task can only hold after it has been admitted into the Step
Executor: `Executing` is entered by admission or reactivation, `Delegating`
and `Done` only from `Executing`. -/
def Adm (st : TaskStatus) : Prop :=
  st = TaskStatus.Executing ∨ st = TaskStatus.Delegating ∨ st = TaskStatus.Done

/-- All task-list mutations of `AgentExecutor` (part_000), as one atomic
step each; asynchronous interleavings of the engine are sequentialized as
arbitrary orderings of these steps.  Guards that depend on concurrency
state the model does not track (the in-flight registry, the stall
condition, the stop flag) are soundly dropped — the relation
over-approximates the engine's behaviours, which is conservative for the
safety property of claim C8:
* `admitReady`: lines 38-48 and 194-200 — a task selected by `findReadyTasks`
  (re-checked `Queued`, which membership implies) is set `Executing`;
* `markDone`: lines 210-212 — a currently-`Executing` task is set `Done`;
* `retryRequeue`/`retryExhaust`: lines 220-236 — the catch path re-queues
  with an incremented `retryCount` or sets `Error` on exhaustion;
* `recordSteps`: line 365 — the ReAct loop stores accumulated sub-steps;
* `delegate`: lines 263-301 — an `Executing` parent is set `Delegating`
  and a fresh child (`Queued`, `delegatorTaskId` = parent, timestamp id not
  yet in the list) is appended;
* `reactivate`: line 214 — `reactivateDelegatorIfAny` after a completion;
* `cancelStep`, `stopStep`, `stallStep`: `cancelTask`, `stop()` and the
  stall branch. -/
inductive Step : List Task → List Task → Prop where
  | admitReady (s : List Task) (t : Task) (h : t ∈ findReadyTasks s) :
      Step s (updateTask s t { status := some TaskStatus.Executing }).tasks
  | markDone (s : List Task) (t : Task) (hf : s.find? (byId t.id) = some t)
      (he : t.status = TaskStatus.Executing) :
      Step s (updateTask s t { status := some TaskStatus.Done }).tasks
  | retryRequeue (s : List Task) (t : Task) (h : t.retryCount < t.maxRetries) :
      Step s (updateTask s t
        { status := some TaskStatus.Queued, retryCount := some (t.retryCount + 1) }).tasks
  | retryExhaust (s : List Task) (t : Task) (h : ¬ t.retryCount < t.maxRetries) :
      Step s (updateTask s t { status := some TaskStatus.Error }).tasks
  | recordSteps (s : List Task) (t : Task) (ss : List SubStep) :
      Step s (updateTask s t { subSteps := some ss }).tasks
  | delegate (s : List Task) (parent child : Task) (ss : List SubStep)
      (hp : s.find? (byId parent.id) = some parent)
      (hs : parent.status = TaskStatus.Executing)
      (hfresh : child.id ∉ s.map Task.id) (hcs : child.status = TaskStatus.Queued)
      (hcdel : child.delegatorTaskId = some parent.id) :
      Step s ((updateTask s parent
        { status := some TaskStatus.Delegating, subSteps := some ss }).tasks ++ [child])
  | reactivate (s : List Task) (ct : Task) : Step s (reactivateDelegatorIfAny s ct)
  | cancelStep (s : List Task) (i : String) : Step s (cancelTask s i)
  | stopStep (s : List Task) : Step s (stopRun s)
  | stallStep (s : List Task) : Step s (stallErrors s)

/-- States reachable from an initial task list by engine steps. -/
inductive Reachable (init : List Task) : List Task → Prop where
  | refl : Reachable init init
  | tail {s s' : List Task} : Reachable init s → Step s s' → Reachable init s'

theorem find?_append_left {l1 l2 : List Task} {p : Task → Bool} {a : Task}
    (h : l1.find? p = some a) : (l1 ++ l2).find? p = some a := by
  induction l1 with
  | nil => cases h
  | cons hd tl ih =>
    rw [List.cons_append, List.find?_cons] at *
    cases hp : p hd with
    | true => simp only [hp] at h ⊢; exact h
    | false => simp only [hp] at h ⊢; exact ih h

theorem find?_updateList_cases {s : List Task} (i : String) (u : TaskUpdates) {j : String}
    {a : Task} (ha : s.find? (byId j) = some a) :
    (updateList s i u).find? (byId j) =
      some (if a.id = i then applyUpdates a u else a) := by
  rw [find?_updateList, ha]
  rfl

/-- The parts of `reactivateDelegatorIfAny` relevant to the invariants:
the result is either the input list or a status/subSteps update of the
`Delegating` parent. -/
theorem reactivate_cases (s : List Task) (ct : Task) :
    reactivateDelegatorIfAny s ct = s ∨
    ∃ pid p ss, ct.delegatorTaskId = some pid ∧ s.find? (byId pid) = some p ∧
      p.status = TaskStatus.Delegating ∧
      reactivateDelegatorIfAny s ct =
        updateList s pid { status := some TaskStatus.Executing, subSteps := ss } := by
  unfold reactivateDelegatorIfAny
  split
  · exact Or.inl rfl
  · rename_i pid hdel
    split
    · exact Or.inl rfl
    · rename_i p hfp
      by_cases hst : p.status = TaskStatus.Delegating
      · rw [if_pos hst]
        split
        · rename_i lastStep hlast
          refine Or.inr ⟨pid, p, some (p.subSteps.dropLast ++
            [{ lastStep with observation := childDoneObservation ct.title }]), hdel, hfp, hst, ?_⟩
          rw [updateTask_tasks, (find?_byId_eq_some hfp).1]
        · refine Or.inr ⟨pid, p, none, hdel, hfp, hst, ?_⟩
          rw [updateTask_tasks, (find?_byId_eq_some hfp).1]
      · rw [if_neg hst]
        exact Or.inl rfl

/-- Every engine step preserves uniqueness of ids and preserves the
identity and dependency list of every existing task. -/
theorem step_structure {s s' : List Task} (st : Step s s')
    (hnd : (s.map Task.id).Nodup) :
    (s'.map Task.id).Nodup ∧
    ∀ j a, s.find? (byId j) = some a →
      ∃ b, s'.find? (byId j) = some b ∧ b.dependencies = a.dependencies := by
  have upd : ∀ (i : String) (u : TaskUpdates),
      ((updateList s i u).map Task.id).Nodup ∧
      ∀ j a, s.find? (byId j) = some a →
        ∃ b, (updateList s i u).find? (byId j) = some b ∧
          b.dependencies = a.dependencies := by
    intro i u
    refine ⟨by rw [updateList_map_id]; exact hnd, ?_⟩
    intro j a ha
    refine ⟨if a.id = i then applyUpdates a u else a, find?_updateList_cases i u ha, ?_⟩
    by_cases h : a.id = i
    · rw [if_pos h]
      exact applyUpdates_dependencies a u
    · rw [if_neg h]
  have shadow : ∀ {c : TaskStatus} {l : List Task}, StatusShadow c s l →
      ((l.map Task.id).Nodup ∧
      ∀ j a, s.find? (byId j) = some a →
        ∃ b, l.find? (byId j) = some b ∧ b.dependencies = a.dependencies) := by
    intro c l hsh
    refine ⟨by rw [StatusShadow.map_id hsh]; exact hnd, ?_⟩
    intro j a ha
    have hsome : (l.find? (byId j)).isSome := by
      rw [find?_byId_isSome, StatusShadow.map_id hsh, ← find?_byId_isSome, ha]
      rfl
    obtain ⟨b, hb⟩ := Option.isSome_iff_exists.mp hsome
    obtain ⟨a', ha', hrel⟩ := StatusShadow.find? hsh j hb
    rw [ha] at ha'
    obtain rfl := Option.some.inj ha'
    exact ⟨b, hb, StatusShadow.dependencies hrel⟩
  cases st with
  | admitReady t h => rw [updateTask_tasks]; exact upd t.id _
  | markDone t hf he => rw [updateTask_tasks]; exact upd t.id _
  | retryRequeue t h => rw [updateTask_tasks]; exact upd t.id _
  | retryExhaust t h => rw [updateTask_tasks]; exact upd t.id _
  | recordSteps t ss => rw [updateTask_tasks]; exact upd t.id _
  | delegate parent child ss hp hs hfresh hcs hcdel =>
    rw [updateTask_tasks]
    constructor
    · rw [List.map_append, List.map_singleton]
      rw [List.nodup_append]
      refine ⟨by rw [updateList_map_id]; exact hnd, List.nodup_singleton _, ?_⟩
      intro x hx
      rw [updateList_map_id] at hx
      simp only [List.mem_singleton]
      intro he
      rw [he] at hx
      exact hfresh hx
    · intro j a ha
      obtain ⟨b, hb, hdeps⟩ := (upd parent.id _).2 j a ha
      exact ⟨b, find?_append_left hb, hdeps⟩
  | reactivate ct =>
    rcases reactivate_cases _ ct with heq | ⟨pid, p, ss, -, -, -, heq⟩
    · rw [heq]
      exact ⟨hnd, fun j a ha => ⟨a, ha, rfl⟩⟩
    · rw [heq]
      exact upd pid _
  | cancelStep i => exact shadow (cancelTask_shadow _ i)
  | stopStep => exact shadow (stopRun_shadow _)
  | stallStep => exact shadow (stallErrors_shadow _)

theorem isReady_deps {s : List Task} {t : Task} (h : isReady s t = true) :
    ∀ d ∈ t.dependencies, ∃ u, s.find? (byId d) = some u ∧
      u.status = TaskStatus.Done := by
  unfold isReady at h
  rw [Bool.and_eq_true] at h
  obtain ⟨-, hall⟩ := h
  intro d hd
  have hone := List.all_eq_true.mp hall d hd
  cases hfind : s.find? (byId d) with
  | none =>
    rw [hfind] at hone
    simp at hone
  | some u =>
    rw [hfind] at hone
    simp only [decide_eq_true_eq] at hone
    exact ⟨u, rfl, hone⟩

/-- The only engine step that moves a task from a not-yet-admitted status
into `Executing`/`Delegating`/`Done` is admission, which requires every
dependency id to resolve to a `Done` task at that moment. -/
theorem step_entry {s s' : List Task} (st : Step s s') (hnd : (s.map Task.id).Nodup)
    {j : String} {a b : Task}
    (ha : s.find? (byId j) = some a) (hb : s'.find? (byId j) = some b)
    (hna : ¬ Adm a.status) (hba : Adm b.status) :
    ∀ d ∈ a.dependencies, ∃ u, s.find? (byId d) = some u ∧
      u.status = TaskStatus.Done := by
  cases st with
  | admitReady t h =>
    rw [updateTask_tasks, find?_updateList_cases t.id _ ha] at hb
    obtain rfl := Option.some.inj hb
    by_cases hat : a.id = t.id
    · have hts : t ∈ s := List.mem_of_mem_filter h
      have hae : a = t := eq_of_mem_same_id hnd (List.mem_of_find?_eq_some ha) hts hat
      have hready : isReady s t = true := (List.mem_filter.mp h).2
      intro d hd
      exact isReady_deps hready d (by rw [← hae]; exact hd)
    · rw [if_neg hat] at hba
      exact absurd hba hna
  | markDone t hf he =>
    rw [updateTask_tasks, find?_updateList_cases t.id _ ha] at hb
    obtain rfl := Option.some.inj hb
    by_cases hat : a.id = t.id
    · have hj : j = t.id := by rw [← (find?_byId_eq_some ha).1, hat]
      rw [hj] at ha
      rw [ha] at hf
      obtain rfl := Option.some.inj hf
      exact absurd (Or.inl he) hna
    · rw [if_neg hat] at hba
      exact absurd hba hna
  | retryRequeue t h =>
    rw [updateTask_tasks, find?_updateList_cases t.id _ ha] at hb
    obtain rfl := Option.some.inj hb
    by_cases hat : a.id = t.id
    · rw [if_pos hat] at hba
      have hstat : (applyUpdates a
          { status := some TaskStatus.Queued, retryCount := some (t.retryCount + 1) }).status =
          TaskStatus.Queued := rfl
      rw [hstat] at hba
      rcases hba with h1 | h1 | h1 <;> cases h1
    · rw [if_neg hat] at hba
      exact absurd hba hna
  | retryExhaust t h =>
    rw [updateTask_tasks, find?_updateList_cases t.id _ ha] at hb
    obtain rfl := Option.some.inj hb
    by_cases hat : a.id = t.id
    · rw [if_pos hat] at hba
      have hstat : (applyUpdates a { status := some TaskStatus.Error }).status =
          TaskStatus.Error := rfl
      rw [hstat] at hba
      rcases hba with h1 | h1 | h1 <;> cases h1
    · rw [if_neg hat] at hba
      exact absurd hba hna
  | recordSteps t ss =>
    rw [updateTask_tasks, find?_updateList_cases t.id _ ha] at hb
    obtain rfl := Option.some.inj hb
    by_cases hat : a.id = t.id
    · rw [if_pos hat] at hba
      have hstat : (applyUpdates a { subSteps := some ss }).status = a.status := rfl
      rw [hstat] at hba
      exact absurd hba hna
    · rw [if_neg hat] at hba
      exact absurd hba hna
  | delegate parent child ss hp hs hfresh hcs hcdel =>
    rw [updateTask_tasks,
      find?_append_left (find?_updateList_cases parent.id _ ha)] at hb
    obtain rfl := Option.some.inj hb
    by_cases hat : a.id = parent.id
    · have hj : j = parent.id := by rw [← (find?_byId_eq_some ha).1, hat]
      rw [hj] at ha
      rw [ha] at hp
      obtain rfl := Option.some.inj hp
      exact absurd (Or.inl hs) hna
    · rw [if_neg hat] at hba
      exact absurd hba hna
  | reactivate ct =>
    rcases reactivate_cases s ct with heq | ⟨pid, p, ss2, -, hfp, hpd, heq⟩
    · rw [heq, ha] at hb
      obtain rfl := Option.some.inj hb
      exact absurd hba hna
    · rw [heq, find?_updateList_cases pid _ ha] at hb
      obtain rfl := Option.some.inj hb
      by_cases hat : a.id = pid
      · have hj : j = pid := by rw [← (find?_byId_eq_some ha).1, hat]
        rw [hj] at ha
        rw [ha] at hfp
        obtain rfl := Option.some.inj hfp
        exact absurd (Or.inr (Or.inl hpd)) hna
      · rw [if_neg hat] at hba
        exact absurd hba hna
  | cancelStep i =>
    obtain ⟨a', ha', hrel⟩ := StatusShadow.find? (cancelTask_shadow s i) j hb
    rw [ha] at ha'
    obtain rfl := Option.some.inj ha'
    rcases hrel with rfl | rfl
    · exact absurd hba hna
    · have hstat : ({ a with status := TaskStatus.Cancelled } : Task).status =
          TaskStatus.Cancelled := rfl
      rw [hstat] at hba
      rcases hba with h1 | h1 | h1 <;> cases h1
  | stopStep =>
    obtain ⟨a', ha', hrel⟩ := StatusShadow.find? (stopRun_shadow s) j hb
    rw [ha] at ha'
    obtain rfl := Option.some.inj ha'
    rcases hrel with rfl | rfl
    · exact absurd hba hna
    · have hstat : ({ a with status := TaskStatus.Cancelled } : Task).status =
          TaskStatus.Cancelled := rfl
      rw [hstat] at hba
      rcases hba with h1 | h1 | h1 <;> cases h1
  | stallStep =>
    obtain ⟨a', ha', hrel⟩ := StatusShadow.find? (stallErrors_shadow s) j hb
    rw [ha] at ha'
    obtain rfl := Option.some.inj ha'
    rcases hrel with rfl | rfl
    · exact absurd hba hna
    · have hstat : ({ a with status := TaskStatus.Error } : Task).status =
          TaskStatus.Error := rfl
      rw [hstat] at hba
      rcases hba with h1 | h1 | h1 <;> cases h1

/-- Claim C8: with unique ids, if task B (initially `Queued`) depends on
id `aId`, then in every state reachable by engine steps in which B is
`Executing`, some earlier state on the way there had the task with id
`aId` in status `Done` — B is admitted only once every one of its
dependency ids resolves to a `Done` task, and every other path into
`Executing`/`Delegating`/`Done` starts from an already-admitted status. -/
theorem claim8_dependency_ordering (init : List Task) (bId aId : String) (tB : Task)
    (hnd : (init.map Task.id).Nodup)
    (hB : init.find? (byId bId) = some tB)
    (hq : tB.status = TaskStatus.Queued)
    (hdep : aId ∈ tB.dependencies) :
    ∀ s, Reachable init s → ∀ b, s.find? (byId bId) = some b →
      b.status = TaskStatus.Executing →
      ∃ s', Reachable init s' ∧ Reachable s' s ∧
        ∃ ua, s'.find? (byId aId) = some ua ∧ ua.status = TaskStatus.Done := by
  have hstruct : ∀ s, Reachable init s →
      (s.map Task.id).Nodup ∧
        ∃ c, s.find? (byId bId) = some c ∧ c.dependencies = tB.dependencies := by
    intro s hr
    induction hr with
    | refl => exact ⟨hnd, tB, hB, rfl⟩
    | tail hr' st ih =>
      obtain ⟨hnd', c', hc', hdeps'⟩ := ih
      obtain ⟨hnd'', hpres⟩ := step_structure st hnd'
      obtain ⟨c'', hc'', hdeps''⟩ := hpres bId c' hc'
      exact ⟨hnd'', c'', hc'', hdeps''.trans hdeps'⟩
  have main : ∀ s, Reachable init s → ∀ b, s.find? (byId bId) = some b →
      Adm b.status →
      ∃ s', Reachable init s' ∧ Reachable s' s ∧
        ∃ ua, s'.find? (byId aId) = some ua ∧ ua.status = TaskStatus.Done := by
    intro s hr
    induction hr with
    | refl =>
      intro b hb hadm
      rw [hB] at hb
      obtain rfl := Option.some.inj hb
      rw [hq] at hadm
      rcases hadm with h | h | h <;> cases h
    | tail hr' st ih =>
      intro b hb hadm
      obtain ⟨hnd1, b1, hb1, hdeps1⟩ := hstruct _ hr'
      by_cases hadm1 : Adm b1.status
      · obtain ⟨s', h1, h2, hua⟩ := ih b1 hb1 hadm1
        exact ⟨s', h1, Reachable.tail h2 st, hua⟩
      · obtain ⟨u, hu, hud⟩ :=
          step_entry st hnd1 hb1 hb hadm1 hadm aId (by rw [hdeps1]; exact hdep)
        exact ⟨_, hr', Reachable.tail Reachable.refl st, u, hu, hud⟩
  intro s hr b hb hex
  exact main s hr b hb (Or.inl hex)

def c8A : Task := mkTask "a" TaskStatus.Queued []

def c8B : Task := mkTask "b" TaskStatus.Queued ["a"]

def c8init : List Task := [c8A, c8B]

def c8s1 : List Task := (updateTask c8init c8A { status := some TaskStatus.Executing }).tasks

def c8t1 : Task := { c8A with status := TaskStatus.Executing }

def c8s2 : List Task := (updateTask c8s1 c8t1 { status := some TaskStatus.Done }).tasks

def c8s3 : List Task := (updateTask c8s2 c8B { status := some TaskStatus.Executing }).tasks

/-- Claim C8, witness: in the run A (no deps), B (depends on A), after the
step sequence admit A, finish A, admit B — a reachable state with B
`Executing` — some earlier reachable state has A `Done`. -/
theorem claim8_witness :
    ∃ s', Reachable c8init s' ∧ Reachable s' c8s3 ∧
      ∃ ua, s'.find? (byId "a") = some ua ∧ ua.status = TaskStatus.Done :=
  claim8_dependency_ordering c8init "b" "a" c8B (by decide) (by decide) (by decide)
    (by decide) c8s3
    (Reachable.tail
      (Reachable.tail
        (Reachable.tail Reachable.refl (Step.admitReady c8init c8A (by decide)))
        (Step.markDone c8s1 c8t1 (by decide) (by decide)))
      (Step.admitReady c8s2 c8B (by decide)))
    { c8B with status := TaskStatus.Executing } (by decide) (by decide)

end Echomen
